import Mathlib

/-!
# Verification of the A.FM audio file manager core

Shallow embedding, in Lean 4, of the core logic of the A.FM audio file
manager (a TypeScript/React application), together with proofs and
refutations of its specification claims.

The embedding covers:
* the smart search matcher `matchSmartSearch`,
* the flat filter predicate (`filteredFiles`) and the tree flattener's
  per-file predicate (`flattenedList` in `FileExplorer.tsx`),
* the sort comparators of the flat list (`sortedFiles`) and of the tree
  flattener, with the flat sort modelled as a stable sort
  (ECMAScript guarantees `Array.prototype.sort` stability),
* the playback sequencer (`playNext`, `playPrev`) and the generation-token
  race discipline of `playFile` as a small-step interleaving model,
* the metadata enrichment queue (`enrichMetadata`) with its batching and
  flush rules and the bounds calculator (`refreshFiles`),
* batch relocation (`handleBatchMove`).

JavaScript strings are modelled through their character lists; all string
helpers below are explicit embeddings of the JS built-ins actually used by
the source (`trim`, `split(/\s+/)`, `toLowerCase`, `includes`,
`startsWith`, `substring`, `lastIndexOf`).  JS numbers are modelled as `ℚ`
(no floating point subtleties arise in the claims).
-/

/-! ## JS string built-ins -/

/-- The whitespace characters recognised by the JS `trim` / `\s`
(restricted to the ASCII range, which is all the claims exercise). -/
def isWS (c : Char) : Bool :=
  c = ' ' || c = '\t' || c = '\n' || c = '\r' || c = '\x0b' || c = '\x0c'

/-- JS `String.prototype.trim` on character lists. -/
def jsTrimL (l : List Char) : List Char :=
  ((l.dropWhile isWS).reverse.dropWhile isWS).reverse

/-- JS `String.prototype.trim`. -/
def jsTrim (s : String) : String :=
  String.mk (jsTrimL s.data)

/-- Accumulating tokenizer: splits a character list into its maximal
runs of non-whitespace characters.  `cur` is the (reversed) token being
built.  For a trimmed non-empty string this is exactly
`split(/\s+/)`. -/
def tokensAux : List Char → List Char → List (List Char)
  | [], cur => if cur = [] then [] else [cur.reverse]
  | c :: rest, cur =>
    if isWS c then
      if cur = [] then tokensAux rest [] else cur.reverse :: tokensAux rest []
    else tokensAux rest (c :: cur)

/-- The whitespace-separated tokens of a character list. -/
def wsTokens (l : List Char) : List (List Char) :=
  tokensAux l []

/-- Embedding of `query.trim().split(/\s+/)` as a list of strings (for a non-empty
trimmed query; the empty query is short-circuited by the matcher's
guard before `split` is ever consulted). -/
def queryTerms (query : String) : List String :=
  (wsTokens query.data).map String.mk

/-- JS `String.prototype.toLowerCase` (ASCII). -/
def jsToLower (s : String) : String :=
  String.mk (s.data.map Char.toLower)

/-- Substring occurrence on character lists: does `needle` occur
contiguously inside `hay`?  (JS `String.prototype.includes`.) -/
def listContainsSub (needle : List Char) : List Char → Bool
  | [] => needle.isEmpty
  | c :: rest => needle.isPrefixOf (c :: rest) || listContainsSub needle rest

/-- JS `String.prototype.includes`. -/
def jsIncludes (s sub : String) : Bool :=
  listContainsSub sub.data s.data

/-- JS `String.prototype.startsWith`. -/
def jsStartsWith (s p : String) : Bool :=
  p.data.isPrefixOf s.data

/-- JS `String.prototype.lastIndexOf` for a single character
(`-1` when absent). -/
def lastIdxOfChar (l : List Char) (ch : Char) : Int :=
  match l.reverse.findIdx? (· = ch) with
  | none => -1
  | some i => ((l.length - 1 - i : Nat) : Int)

/-- JS `String.prototype.substring(i)` (drop the first `i` characters). -/
def jsSubstringFrom (s : String) (i : Nat) : String :=
  String.mk (s.data.drop i)

/-- JS `String.prototype.substring(i, j)` (characters `[i, j)`). -/
def jsSubstring (s : String) (i j : Nat) : String :=
  String.mk ((s.data.drop i).take (j - i))

/-! ## A model of the JS `RegExp` capability

The source hands search terms of the form `/pattern/flags` to the
external JS `RegExp` engine (`new RegExp(pattern, flags || 'i')` followed
by `re.test(text)`), falling back to a plain substring match when regex
construction throws.  `RegExp` is an external capability, not code of
this repository; we model the fragment the specification exercises:
patterns made of literal characters, an optional leading `^` anchor and
the `.` wildcard.  Patterns using any other metacharacter are treated as
failing to compile (which routes them to the source's fallback branch),
and flags are validated as a duplicate-free subset of the JS flag
letters, with `i` selecting case-insensitive matching. -/

/-- One atom of the modelled regex fragment. -/
inductive ReAtom where
  | lit (c : Char)
  | dot
deriving DecidableEq

/-- Characters reserved by JS regex syntax that the model does not
interpret; a pattern containing one fails to compile in the model. -/
def reSpecialChar (c : Char) : Bool :=
  c = '(' || c = ')' || c = '[' || c = ']' || c = '{' || c = '}' ||
  c = '*' || c = '+' || c = '?' || c = '|' || c = '\\' || c = '$' || c = '^'

/-- Parse the body of a pattern into atoms; `none` when an uninterpreted
metacharacter occurs. -/
def parseAtoms : List Char → Option (List ReAtom)
  | [] => some []
  | c :: rest =>
    if c = '.' then (parseAtoms rest).map (ReAtom.dot :: ·)
    else if reSpecialChar c then none
    else (parseAtoms rest).map (ReAtom.lit c :: ·)

/-- Parse a whole pattern: an optional leading `^` anchor then atoms. -/
def parseSimplePattern (l : List Char) : Option (Bool × List ReAtom) :=
  match l with
  | '^' :: rest => (parseAtoms rest).map (fun a => (true, a))
  | _ => (parseAtoms l).map (fun a => (false, a))

/-- The JS regex flag letters. -/
def reFlagChar (c : Char) : Bool :=
  c = 'd' || c = 'g' || c = 'i' || c = 'm' || c = 's' || c = 'u' || c = 'v' || c = 'y'

/-- JS rejects unknown or repeated flags with a `SyntaxError`. -/
def flagsValid (flags : String) : Bool :=
  flags.data.all reFlagChar && decide flags.data.Nodup

/-- Match atoms against a prefix of the text. -/
def atomsMatchAt (ci : Bool) : List ReAtom → List Char → Bool
  | [], _ => true
  | _ :: _, [] => false
  | a :: as, c :: cs =>
    (match a with
     | ReAtom.dot => true
     | ReAtom.lit x => if ci then x.toLower = c.toLower else x = c) &&
    atomsMatchAt ci as cs

/-- Unanchored search: try to match at every suffix of the text. -/
def reSearch (ci : Bool) (atoms : List ReAtom) : List Char → Bool
  | [] => atomsMatchAt ci atoms []
  | c :: rest => atomsMatchAt ci atoms (c :: rest) || reSearch ci atoms rest

/-- Embedding of `re.test(text)` for the modelled fragment. -/
def reTest (anchored : Bool) (atoms : List ReAtom) (ci : Bool) (text : List Char) : Bool :=
  if anchored then atomsMatchAt ci atoms text else reSearch ci atoms text

/-! ## The smart search matcher

Embedding of `matchSmartSearch` (`src/unnamed/part_000` lines 100-122). -/

/-- One term of the query, as evaluated inside the `terms.every(...)`
callback of `matchSmartSearch`. -/
def matchTerm (text term : String) : Bool :=
  if jsStartsWith term "-" then
    -- const exclude = term.substring(1).toLowerCase();
    let exclude := jsToLower (jsSubstringFrom term 1)
    if exclude = "" then true
    else !(jsIncludes (jsToLower text) exclude)
  else if jsStartsWith term "/" && lastIdxOfChar term.data '/' > 0 then
    let lastSlash := (lastIdxOfChar term.data '/').toNat
    let pattern := jsSubstring term 1 lastSlash
    let flags := jsSubstringFrom term (lastSlash + 1)
    -- new RegExp(pattern, flags || 'i') ... re.test(text), with the
    -- catch-branch falling back to a substring match.
    let effFlags := if flags = "" then "i" else flags
    if flagsValid effFlags then
      match parseSimplePattern pattern.data with
      | some (anch, atoms) => reTest anch atoms (effFlags.data.contains 'i') text.data
      | none => jsIncludes (jsToLower text) (jsToLower term)
    else jsIncludes (jsToLower text) (jsToLower term)
  else jsIncludes (jsToLower text) (jsToLower term)

/-- Embedding of `matchSmartSearch(text, query)` (lines 100-122): an empty/whitespace
query matches everything, otherwise every whitespace-separated term must
match. -/
def matchSmartSearch (text query : String) : Bool :=
  if jsTrim query = "" then true
  else (queryTerms query).all (matchTerm text)

/-! ## Library entries, filter criteria, metadata maps

`FileSystemItem` carries `size`, `type`, `lastModified` as optional
fields; durations and ratings live in separate id-keyed maps
(`durations`, `ratings` in the app state), with absent keys read as `0`
through the JS `|| 0` idiom. -/

/-- A file row of the library (the fields the filter and sort consult). -/
structure FileEntry where
  id : String
  name : String
  size : Option ℚ
  type : Option String
  lastModified : Option ℚ
deriving DecidableEq

/-- A JS object keyed by entry id with number values
(`Record<string, number>`), modelled by its lookup function. -/
def JsMap : Type := String → Option ℚ

/-- The everywhere-absent map (`{}`). -/
def JsMap.empty : JsMap := fun _ => none

/-- JS object assignment `m[k] = v`. -/
def JsMap.set (m : JsMap) (k : String) (v : ℚ) : JsMap :=
  fun q => if q = k then some v else m q

/-- JS object spread `{ ...m, ...b }`: keys of `b` override keys of `m`. -/
def JsMap.mergeOver (m b : JsMap) : JsMap :=
  fun q => match b q with
  | some v => some v
  | none => m q

/-- Reading `durations[id] || 0` / `ratings[id] || 0`: map lookup defaulting to
`0` (a stored `0` and an absent key are indistinguishable, as in JS). -/
def lookupOr0 (m : JsMap) (id : String) : ℚ :=
  (m id).getD 0

/-- The `FilterCriteria` snapshot shared by the flat filter and the tree
flattener (`FileExplorer.tsx` lines 6-15). -/
structure FilterCriteria where
  searchText : String
  minSize : ℚ
  maxSize : ℚ
  minDuration : ℚ
  maxDuration : ℚ
  minDate : ℚ
  maxDate : ℚ
  minRating : ℚ
deriving DecidableEq

/-- The flat-list filter predicate of `filteredFiles`
(`src/unnamed/part_000` lines 570-581). -/
def filteredFilesPred (c : FilterCriteria) (durations ratings : JsMap)
    (file : FileEntry) : Bool :=
  let duration := lookupOr0 durations file.id
  let rating := lookupOr0 ratings file.id
  let matchSearch := matchSmartSearch file.name c.searchText
  let matchSize := decide ((file.size.getD 0) ≥ c.minSize) && decide ((file.size.getD 0) ≤ c.maxSize)
  let matchDuration := decide (duration ≥ c.minDuration) && decide (duration ≤ c.maxDuration)
  let matchDate := decide ((file.lastModified.getD 0) ≥ c.minDate) &&
    decide ((file.lastModified.getD 0) ≤ c.maxDate)
  let matchRating := decide (rating ≥ c.minRating)
  matchSearch && matchSize && matchDuration && matchDate && matchRating

/-- JS `x || 0` on a number (`0` stays `0`, anything else is itself). -/
def jsOr0 (x : ℚ) : ℚ := if x = 0 then 0 else x

/-- JS `v <= (m || Infinity)`: when the bound is `0` (falsy) it is
replaced by `Infinity`, so the comparison always succeeds. -/
def leOrInf (v m : ℚ) : Bool := if m = 0 then true else decide (v ≤ m)

/-- The per-file acceptance predicate of the tree flattener
(`FileExplorer.tsx` lines 222-232): identical in intent to
`filteredFilesPred` but the bounds are read through `|| 0` and
`|| Infinity` defaults. -/
def flattenedListFilePred (c : FilterCriteria) (durations ratings : JsMap)
    (node : FileEntry) : Bool :=
  let duration := lookupOr0 durations node.id
  let rating := lookupOr0 ratings node.id
  let nodeMatchesSearch := matchSmartSearch node.name c.searchText
  let matchSize := decide ((node.size.getD 0) ≥ jsOr0 c.minSize) &&
    leOrInf (node.size.getD 0) c.maxSize
  let matchDuration := decide (duration ≥ jsOr0 c.minDuration) && leOrInf duration c.maxDuration
  let matchDate := decide ((node.lastModified.getD 0) ≥ jsOr0 c.minDate) &&
    leOrInf (node.lastModified.getD 0) c.maxDate
  let matchRating := decide (rating ≥ c.minRating)
  nodeMatchesSearch && matchSize && matchDuration && matchDate && matchRating

/-! ## Sort comparators

`sortedFiles` (`src/unnamed/part_000` lines 540-568) sorts
`[...allFiles]` with a comparator built from the `SortKey`/`SortOrder`
pair; the tree flattener (`FileExplorer.tsx` lines 244-253) sorts each
directory's matches with its own inlined comparator.  For `name`/`type`
the JS code reads the raw field through `|| 0`, coerces with
`String(...)` (so an empty/absent field becomes the string `"0"`) and
lowercases; for the other keys it compares numbers. -/

inductive SortKey where
  | name | size | type | date | duration | rating
deriving DecidableEq

inductive SortOrder where
  | asc | desc
deriving DecidableEq

/-- Value `String(valA).toLowerCase()` for the `name` column, where `valA` was
read as `a.name || 0`. -/
def nameSortVal (f : FileEntry) : String :=
  jsToLower (if f.name = "" then "0" else f.name)

/-- Value `String(valA).toLowerCase()` for the `type` column, where `valA` was
read as `a.type || 0` (absent or empty mime becomes `"0"`). -/
def typeSortVal (f : FileEntry) : String :=
  jsToLower (match f.type with
    | none => "0"
    | some t => if t = "" then "0" else t)

/-- The numeric sort value for `size`/`date`/`duration`/`rating`
(each read through `|| 0`). -/
def numSortVal (k : SortKey) (durations ratings : JsMap) (f : FileEntry) : ℚ :=
  match k with
  | SortKey.size => f.size.getD 0
  | SortKey.date => f.lastModified.getD 0
  | SortKey.duration => lookupOr0 durations f.id
  | SortKey.rating => lookupOr0 ratings f.id
  | _ => 0

/-- Body `if (valA < valB) return asc ? -1 : 1; if (valA > valB) return asc ?
1 : -1; return 0;` — the flat-list comparator body, for any ordered
value type. -/
def jsCmpVal {K : Type} [LinearOrder K] (o : SortOrder) (x y : K) : Int :=
  if x < y then (if o = SortOrder.asc then -1 else 1)
  else if x > y then (if o = SortOrder.asc then 1 else -1)
  else 0

/-- The flat-list comparator of `sortedFiles` (lines 541-567). -/
def cmpEntry (k : SortKey) (o : SortOrder) (durations ratings : JsMap)
    (a b : FileEntry) : Int :=
  match k with
  | SortKey.name => jsCmpVal o (nameSortVal a) (nameSortVal b)
  | SortKey.type => jsCmpVal o (typeSortVal a) (typeSortVal b)
  | _ => jsCmpVal o (numSortVal k durations ratings a) (numSortVal k durations ratings b)

/-- Body `valA < valB ? (asc ? -1 : 1) : (asc ? 1 : -1)` — the tree
flattener's comparator body (line 252), which never returns 0. -/
def jsTreeCmpVal {K : Type} [LinearOrder K] (o : SortOrder) (x y : K) : Int :=
  if x < y then (if o = SortOrder.asc then -1 else 1)
  else (if o = SortOrder.asc then 1 else -1)

/-- The tree flattener's per-directory comparator
(`FileExplorer.tsx` lines 245-253). -/
def treeCmpEntry (k : SortKey) (o : SortOrder) (durations ratings : JsMap)
    (a b : FileEntry) : Int :=
  match k with
  | SortKey.name => jsTreeCmpVal o (nameSortVal a) (nameSortVal b)
  | SortKey.type => jsTreeCmpVal o (typeSortVal a) (typeSortVal b)
  | _ => jsTreeCmpVal o (numSortVal k durations ratings a) (numSortVal k durations ratings b)

/-- Embedding of `[...allFiles].sort(cmp)`: ECMAScript guarantees a stable sort, so
the flat list is the stable sort of the input under the comparator
(`a` may precede `b` exactly when `cmp a b ≤ 0`). -/
def sortedFiles (k : SortKey) (o : SortOrder) (durations ratings : JsMap)
    (allFiles : List FileEntry) : List FileEntry :=
  List.insertionSort (fun a b => cmpEntry k o durations ratings a b ≤ 0) allFiles

/-- Toggling the sort order (the `handleSortClick` flip). -/
def toggleOrder : SortOrder → SortOrder
  | SortOrder.asc => SortOrder.desc
  | SortOrder.desc => SortOrder.asc

/-- The flat view: filter after sort
(`filteredFiles = sortedFiles.filter(...)`, lines 570-581). -/
def filteredFiles (k : SortKey) (o : SortOrder) (c : FilterCriteria)
    (durations ratings : JsMap) (allFiles : List FileEntry) : List FileEntry :=
  (sortedFiles k o durations ratings allFiles).filter (filteredFilesPred c durations ratings)

/-! ## Playback sequencer: next / previous track selection

Embedding of `playNext` (`src/unnamed/part_000` lines 696-722) and
`playPrev` (lines 729-745).  Only file ids are needed; the outcome is
the `playFile(entry, shouldPlay)` call the function issues, or `none`
when it returns without playing.  `Math.random()` draws are modelled by
passing the already-floored index `draw`; the JS `%` operator is `Int.tmod`
(remainder with the dividend's sign). -/

/-- First index satisfying a predicate, if any (`Array.findIndex`
before its `-1` encoding). -/
def findIdxOpt {α : Type} (p : α → Bool) : List α → Option Nat
  | [] => none
  | x :: xs => if p x then some 0 else (findIdxOpt p xs).map (· + 1)

/-- Embedding of `filteredFiles.findIndex(f => f.id === activeFileId)` (`-1` when the
active entry is not in the list or there is no active entry). -/
def jsFindIndex (files : List String) (activeId : Option String) : Int :=
  match findIdxOpt (fun f => activeId = some f) files with
  | none => -1
  | some i => (i : Int)

/-- JS `array[i]` for a possibly negative index (`undefined` out of
range, so the `if (nextFile)` guard skips the play). -/
def jsIndex (files : List String) (i : Int) : Option String :=
  if i < 0 then none else files.get? i.toNat

/-- Embedding of `playNext(forceNext)`: result is the `playFile` request issued
(entry id, shouldPlay), or `none`. -/
def playNext (files : List String) (activeId : Option String)
    (isRandom isLooping isPlaying force : Bool) (draw : Nat) : Option (String × Bool) :=
  if files.length = 0 then none
  else
    let activeFile := files.find? (fun f => activeId = some f)
    if force = false && isLooping && activeFile.isSome then
      activeFile.map (fun f => (f, true))
    else
      let currentIdx := jsFindIndex files activeId
      let nextIdx : Int :=
        if isRandom then (draw : Int)
        else (currentIdx + 1).tmod files.length
      let shouldPlay := if force then isPlaying else true
      (jsIndex files nextIdx).map (fun f => (f, shouldPlay))

/-- Embedding of `playPrev()`: result is the `playFile` request issued, or `none`;
navigation always preserves the current play state. -/
def playPrev (files : List String) (activeId : Option String)
    (isRandom isPlaying : Bool) (draw : Nat) : Option (String × Bool) :=
  if files.length = 0 then none
  else
    let currentIdx := jsFindIndex files activeId
    let prevIdx : Int :=
      if isRandom then (draw : Int)
      else (currentIdx - 1 + files.length).tmod files.length
    (jsIndex files prevIdx).map (fun f => (f, isPlaying))

/-! ## Playback generation race (`playFile`)

`playFile` (`src/unnamed/part_000` lines 587-687) captures
`requestId = ++playRequestCount.current` synchronously at the call, then
proceeds through suspension points.  Its observable effects, grouped into
the atomic segments between `await`s, are:

* `bump` — the synchronous prologue: increments the shared counter and
  captures it as the task's generation;
* `commitActive` — after the file open resolves: `setActiveFileId(item.id)`
  (line 619), with no generation check before it;
* `playCheck` — after `audio.play()` resolves: `setIsPlaying(true)`
  (line 633) immediately followed by the first generation check
  (line 644), which returns early when stale;
* `checkWave` — after the decode resolves: the second generation check
  (line 653) and, in the same synchronous segment, the waveform
  computation and `setWaveformData` (line 670).

Two overlapping calls `play(A)` then `play(B)` are modelled as two such
tasks interleaved by an arbitrary schedule (`true` = a step of A,
`false` = a step of B).  Since `play(A)` is called first and the prologue
is synchronous, A's `bump` precedes everything of B; the initial
configuration therefore has A already bumped. -/

inductive PbAct where
  | bump | commitActive | playCheck | checkWave
deriving DecidableEq

/-- One in-flight `playFile` task: its entry id, captured generation and
remaining atomic segments. -/
structure TaskSt where
  item : String
  g : Nat
  rem : List PbAct
deriving DecidableEq

/-- The shared playback state plus the two tasks. -/
structure PbCfg where
  counter : Nat
  activeId : Option String
  playing : Bool
  waveform : Option String
  ta : TaskSt
  tb : TaskSt
deriving DecidableEq

/-- Execute one atomic segment of a task against the shared state.
A failed generation check empties the task's remaining list (the early
`return`). -/
def applyAct (c : PbCfg) (t : TaskSt) (a : PbAct) (rest : List PbAct) : PbCfg × TaskSt :=
  match a with
  | PbAct.bump =>
    ({c with counter := c.counter + 1}, {t with g := c.counter + 1, rem := rest})
  | PbAct.commitActive =>
    ({c with activeId := some t.item}, {t with rem := rest})
  | PbAct.playCheck =>
    if t.g = c.counter then ({c with playing := true}, {t with rem := rest})
    else ({c with playing := true}, {t with rem := []})
  | PbAct.checkWave =>
    if t.g = c.counter then ({c with waveform := some t.item}, {t with rem := rest})
    else (c, {t with rem := []})

/-- Run the next segment of a task (no-op when the task has finished or
aborted). -/
def stepTask (c : PbCfg) (t : TaskSt) : PbCfg × TaskSt :=
  match t.rem with
  | [] => (c, t)
  | a :: rest => applyAct c t a rest

/-- One scheduler step: `true` runs task A, `false` runs task B. -/
def pbStep (c : PbCfg) (who : Bool) : PbCfg :=
  if who then
    let p := stepTask c c.ta
    {p.1 with ta := p.2}
  else
    let p := stepTask c c.tb
    {p.1 with tb := p.2}

/-- Run a whole schedule. -/
def pbRun (c : PbCfg) : List Bool → PbCfg
  | [] => c
  | w :: σ => pbRun (pbStep c w) σ

/-- Initial configuration: `play("A")` was called first (its synchronous
`bump` has happened, `n` being the counter value before it), `play("B")`
has been requested but none of its segments have run yet. -/
def pbInit (n : Nat) : PbCfg :=
  { counter := n + 1, activeId := none, playing := false, waveform := none,
    ta := { item := "A", g := n + 1,
            rem := [PbAct.commitActive, PbAct.playCheck, PbAct.checkWave] },
    tb := { item := "B", g := 0,
            rem := [PbAct.bump, PbAct.commitActive, PbAct.playCheck, PbAct.checkWave] } }

/-- The schedule family in which A runs `p` of its remaining segments,
then B runs to completion, then A resumes: `p` is the suspension point at
which A is parked while B overtakes it (`p = 2` parks A inside the slow
decode, after `setIsPlaying` and the first check). -/
def pbOvertake (p : Nat) : List Bool :=
  List.replicate p true ++ List.replicate 4 false ++ List.replicate (3 - p) true

/-! ## Bounds calculator (`refreshFiles`)

`refreshFiles` (`src/unnamed/part_000` lines 394-446) recomputes the
bounds from the freshly scanned file population: size and date from the
observed minima/maxima, but the duration range is set to the fixed
default `{ min: 0, max: 60 }` (line 423). -/

/-- The facet bounds record. -/
structure Bounds where
  sizeMin : ℚ
  sizeMax : ℚ
  durMin : ℚ
  durMax : ℚ
  dateMin : ℚ
  dateMax : ℚ
deriving DecidableEq

/-- Embedding of `Math.min(...xs)` over a non-empty list (the empty case is guarded
by `files.length > 0` in the source). -/
def listMin : List ℚ → ℚ
  | [] => 0
  | x :: xs => xs.foldl min x

/-- Embedding of `Math.max(...xs)` over a non-empty list. -/
def listMax : List ℚ → ℚ
  | [] => 0
  | x :: xs => xs.foldl max x

/-- The bounds update of `refreshFiles` (lines 417-433): when at least
one file was found, fresh size/date extrema are taken and the duration
bounds are reset to the `{0, 60}` default; otherwise the previous bounds
are kept. -/
def refreshBounds (files : List FileEntry) (b : Bounds) : Bounds :=
  if files = [] then b
  else
    { sizeMin := listMin (files.map (fun f => f.size.getD 0))
      sizeMax := listMax (files.map (fun f => f.size.getD 0))
      durMin := 0
      durMax := 60
      dateMin := listMin (files.map (fun f => f.lastModified.getD 0))
      dateMax := listMax (files.map (fun f => f.lastModified.getD 0)) }

/-! ## Metadata enrichment queue (`enrichMetadata`)

Embedding of the enrichment worker (`src/unnamed/part_000`
lines 448-509).  Each queue item carries the value the bounded-time
probe (`getAudioDuration`) resolves for it — `0` on probe failure or
timeout — and the wall-clock time that elapses while it is processed
(advancing `performance.now()`).  A batch flush merges the batch into
the duration map and issues one persisted-cache write; the flush
condition is `batchSize >= 20 || (now - lastBatchTime > 500 &&
batchSize > 0) || queue drained`.  Bounds widening
(`lastMaxDuration` / `setBounds`) follows lines 475-496. -/

structure EnrichItem where
  id : String
  probe : ℚ
  dt : ℚ
deriving DecidableEq

structure EnrichSt where
  durations : JsMap
  writes : Nat
  batch : JsMap
  batchSize : Nat
  now : ℚ
  lastBatchTime : ℚ
  boundsDurMax : ℚ
  lastMaxDuration : ℚ

/-- Lines `const duration = await getAudioDuration(...)`, then
`if (duration > 0) { batch[...] = duration; batchSize++;
if (duration > lastMaxDuration) lastMaxDuration = Math.ceil(duration); }`
(lines 471-478). -/
def enrichAbsorb (s : EnrichSt) (it : EnrichItem) : EnrichSt :=
  if it.probe > 0 then
    { s with batch := s.batch.set it.id it.probe
             batchSize := s.batchSize + 1
             lastMaxDuration :=
               if it.probe > s.lastMaxDuration then ((⌈it.probe⌉ : ℤ) : ℚ)
               else s.lastMaxDuration }
  else s

/-- Condition `batchSize >= 20 || (now - lastBatchTime > 500 && batchSize > 0) ||
metadataQueueRef.current.length === 0` (line 482). -/
def enrichFlushCond (batchSize : Nat) (now lastBatchTime : ℚ) (remaining : Nat) : Bool :=
  batchSize ≥ 20 || (decide (now - lastBatchTime > 500) && batchSize > 0) ||
    remaining = 0

/-- The flush body (lines 483-500): merge the batch into the duration
map, issue one persisted write, widen the duration bound if
`lastMaxDuration` exceeded it, reset the batch and the flush timer. -/
def enrichFlush (s : EnrichSt) (now : ℚ) : EnrichSt :=
  { s with
      durations := s.durations.mergeOver s.batch
      writes := s.writes + 1
      boundsDurMax :=
        if s.lastMaxDuration > s.boundsDurMax then
          max s.boundsDurMax s.lastMaxDuration
        else s.boundsDurMax
      batch := JsMap.empty
      batchSize := 0
      now := now
      lastBatchTime := now }

/-- Process one queue item; `remaining` is the queue length after the
`shift()`. -/
def enrichStep (s : EnrichSt) (it : EnrichItem) (remaining : Nat) : EnrichSt :=
  let s1 := enrichAbsorb s it
  let now := s.now + it.dt
  if enrichFlushCond s1.batchSize now s1.lastBatchTime remaining then enrichFlush s1 now
  else { s1 with now := now }

/-- Drain the whole queue. -/
def enrichRun : EnrichSt → List EnrichItem → EnrichSt
  | s, [] => s
  | s, it :: rest => enrichRun (enrichStep s it rest.length) rest

/-- The state at the start of an enrichment pass: empty batch,
`lastBatchTime = performance.now()`, `lastMaxDuration =
bounds.duration.max`, and the given duration map and bounds. -/
def enrichInit (durations : JsMap) (boundsDurMax t0 : ℚ) : EnrichSt :=
  { durations := durations, writes := 0, batch := JsMap.empty, batchSize := 0,
    now := t0, lastBatchTime := t0,
    boundsDurMax := boundsDurMax, lastMaxDuration := boundsDurMax }

/-! ## Batch relocation (`handleBatchMove`)

Embedding of `handleBatchMove` (`src/unnamed/part_000` lines 747-789).
Every per-item filesystem step that can throw inside the single
`try { for ... }` block is collapsed into two flags: `getFileOk`
(the `sourceHandle.getFile()` read) and `writeOk`
(`getFileHandle`/`createWritable`/`write`/`close`); a failure of either
throws, jumping to the `catch`.  Removal of the original
(`removeEntry`) sits in its own inner `try` and is best-effort.  -/

structure MoveItem where
  name : String
  isFile : Bool
  getFileOk : Bool
  writeOk : Bool
  hasParent : Bool
  removeOk : Bool
deriving DecidableEq

/-- The loop of `handleBatchMove`: returns the moved count, the names of
the items actually reached before the loop ended, and whether the loop
ran to completion (no uncaught throw). -/
def moveLoop : List MoveItem → Nat → List String → Nat × List String × Bool
  | [], c, att => (c, att, true)
  | i :: rest, c, att =>
    if i.isFile = false then moveLoop rest c att
    else if i.getFileOk && i.writeOk then
      -- removeEntry failures are swallowed by the inner try/catch and
      -- movedCount++ still runs.
      moveLoop rest (c + 1) (att ++ [i.name])
    else (c, att ++ [i.name], false)

/-- The observable outcome of `handleBatchMove`. -/
structure BatchResult where
  movedCount : Nat
  attempted : List String
  success : Bool
  selection : List String
  rescanned : Bool
  errorMsg : Option String
deriving DecidableEq

/-- Embedding of `handleBatchMove(target)` with the items to move already resolved
from the selection (or the active file).  On a throw the `catch` branch
reports `BATCH MOVE FAILED` and neither clears the selection nor
rescans; only a fully successful loop clears the selection, rescans and
reports the moved count. -/
def handleBatchMove (items : List MoveItem) (targetIsDir : Bool)
    (selection : List String) : BatchResult :=
  if items = [] || targetIsDir = false then
    { movedCount := 0, attempted := [], success := false, selection := selection,
      rescanned := false, errorMsg := none }
  else
    match moveLoop items 0 [] with
    | (c, att, true) =>
      { movedCount := c, attempted := att, success := true, selection := [],
        rescanned := true,
        errorMsg := some ("MOVED " ++ toString c ++ " FILE(S)") }
    | (c, att, false) =>
      { movedCount := c, attempted := att, success := false, selection := selection,
        rescanned := false, errorMsg := some "BATCH MOVE FAILED" }

/-- The effective duration map of an enrichment state: what the duration
map will hold once the pending batch is flushed (`{...durations,
...batch}`). -/
def effDurations (s : EnrichSt) : JsMap :=
  s.durations.mergeOver s.batch

/-- The result the whole queue contributes for key `k`: the probe value
of the last successfully probed item with that id, if any. -/
def succLookup : List EnrichItem → String → Option ℚ
  | [], _ => none
  | it :: rest, k =>
    match succLookup rest k with
    | some v => some v
    | none => if it.id = k ∧ 0 < it.probe then some it.probe else none

/-- Invariant of the playback-race model, relating the two tasks'
remaining segments, the generation counter and the committed state: task
A holds generation `n+1`; B either has not bumped yet (counter still
`n+1`) or holds generation `n+2` with the counter settled at `n+2`; once
B has finished, the committed waveform is B's; once B has passed its
play check, `playing` is set. -/
def PbInv (n : Nat) (c : PbCfg) : Prop :=
  c.ta.item = "A" ∧ c.tb.item = "B" ∧ c.ta.g = n + 1 ∧
  (c.ta.rem = [PbAct.commitActive, PbAct.playCheck, PbAct.checkWave] ∨
   c.ta.rem = [PbAct.playCheck, PbAct.checkWave] ∨
   c.ta.rem = [PbAct.checkWave] ∨ c.ta.rem = []) ∧
  ((c.tb.rem = [PbAct.bump, PbAct.commitActive, PbAct.playCheck, PbAct.checkWave] ∧
      c.counter = n + 1) ∨
   (c.counter = n + 2 ∧ c.tb.g = n + 2 ∧
     (c.tb.rem = [PbAct.commitActive, PbAct.playCheck, PbAct.checkWave] ∨
      c.tb.rem = [PbAct.playCheck, PbAct.checkWave] ∨
      c.tb.rem = [PbAct.checkWave] ∨ c.tb.rem = []))) ∧
  (c.tb.rem = [] → c.waveform = some "B") ∧
  ((c.tb.rem = [PbAct.checkWave] ∨ c.tb.rem = []) → c.playing = true)

/-! # Theorems -/

/-! ## C10: empty filtered list -/

/-- C10: when the current filtered list is empty, both `playNext` and
`playPrev` return immediately (`if (filteredFiles.length === 0) return`)
without issuing any `playFile` request, so no index computation, random
draw, or state mutation (`activeId`, `isPlaying`, waveform) ever
happens. -/
theorem c10_empty_list_noop :
    ∀ (activeId : Option String) (isRandom isLooping isPlaying force : Bool) (draw : Nat),
      playNext [] activeId isRandom isLooping isPlaying force draw = none ∧
      playPrev [] activeId isRandom isPlaying draw = none := by
  intro activeId isRandom isLooping isPlaying force draw
  exact ⟨rfl, rfl⟩

/-! ## C4: flat filter vs tree flattener predicate -/

/-- Defaulting `x || 0` is the identity on numbers. -/
theorem jsOr0_eq (x : ℚ) : jsOr0 x = x := by
  unfold jsOr0; split <;> simp_all

/-- C4 (counterexample): the two predicates are *not* extensionally
equal.  With `maxSize = 0` the flat filter demands `size <= 0` while the
tree flattener reads the bound through `|| Infinity` and accepts
everything, so a 5-byte file is rejected by the flat filter but accepted
by the tree flattener under the same criteria snapshot. -/
theorem c4_zero_max_counterexample :
    filteredFilesPred ⟨"", 0, 0, 0, 10, 0, 10, 0⟩ JsMap.empty JsMap.empty
        ⟨"a", "a.wav", some 5, none, some 1⟩ = false ∧
      flattenedListFilePred ⟨"", 0, 0, 0, 10, 0, 10, 0⟩ JsMap.empty JsMap.empty
        ⟨"a", "a.wav", some 5, none, some 1⟩ = true := by
  constructor <;> decide

/-- C4 (amended): provided none of the max bounds is `0` (zero is falsy,
so the tree flattener's `|| Infinity` defaults fire exactly there), the
flat-list filter and the tree flattener accept exactly the same files:
both evaluate `searchMatches(name) AND size in [min,max] AND duration in
[min,max] AND lastModified in [min,max] AND rating >= minRating` with
duration and rating defaulting to 0 when absent from their maps. -/
theorem c4_predicates_agree (c : FilterCriteria) (durations ratings : JsMap)
    (f : FileEntry) (h1 : c.maxSize ≠ 0) (h2 : c.maxDuration ≠ 0) (h3 : c.maxDate ≠ 0) :
    filteredFilesPred c durations ratings f = flattenedListFilePred c durations ratings f := by
  simp [filteredFilesPred, flattenedListFilePred, jsOr0_eq, leOrInf, h1, h2, h3]

/-- C4 witness: the amended equivalence at a concrete criteria snapshot
and file. -/
theorem c4_predicates_agree_witness :
    ((10 : ℚ) ≠ 0) ∧
      filteredFilesPred ⟨"kick", 0, 10, 0, 10, 0, 10, 0⟩ JsMap.empty JsMap.empty
          ⟨"a", "kick.wav", some 5, some "audio/wav", some 1⟩ =
        flattenedListFilePred ⟨"kick", 0, 10, 0, 10, 0, 10, 0⟩ JsMap.empty JsMap.empty
          ⟨"a", "kick.wav", some 5, some "audio/wav", some 1⟩ :=
  ⟨by decide,
   c4_predicates_agree _ _ _ _ (by decide) (by decide) (by decide)⟩

/-! ## C2: batch relocation -/

/-- The move loop over a concatenation: the second part only runs if the
first part finished without throwing. -/
theorem moveLoop_append (l₁ l₂ : List MoveItem) (c : Nat) (att : List String) :
    moveLoop (l₁ ++ l₂) c att =
      (match moveLoop l₁ c att with
       | (c', att', true) => moveLoop l₂ c' att'
       | (c', att', false) => (c', att', false)) := by
  induction l₁ generalizing c att with
  | nil => simp [moveLoop]
  | cons i rest ih =>
    by_cases hf : i.isFile = false
    · simp [moveLoop, hf, ih]
    · by_cases hok : (i.getFileOk && i.writeOk) = true
      · simp [moveLoop, hf, hok, ih]
      · simp [moveLoop, hf, hok]

/-- When every file entry passes its fatal steps, the loop completes,
counting exactly the file entries (a failing `removeEntry` is swallowed
and the entry still counts). -/
theorem moveLoop_all_ok (l : List MoveItem) (c : Nat) (att : List String)
    (h : ∀ i ∈ l, i.isFile = true → i.getFileOk = true ∧ i.writeOk = true) :
    moveLoop l c att =
      (c + (l.filter (·.isFile)).length,
       att ++ (l.filter (·.isFile)).map (·.name), true) := by
  induction l generalizing c att with
  | nil => simp [moveLoop]
  | cons i rest ih =>
    by_cases hf : i.isFile = false
    · have : (i :: rest).filter (·.isFile) = rest.filter (·.isFile) := by
        simp [List.filter, hf]
      rw [this]
      simp only [moveLoop, hf, if_true]
      exact ih c att (fun j hj hjf => h j (List.mem_cons_of_mem i hj) hjf)
    · have hft : i.isFile = true := by
        revert hf; cases i.isFile <;> simp
      obtain ⟨h1, h2⟩ := h i (List.mem_cons_self i rest) hft
      have : (i :: rest).filter (·.isFile) = i :: rest.filter (·.isFile) := by
        simp [List.filter, hft]
      rw [this]
      simp only [moveLoop, hf, if_false, h1, h2, Bool.and_self, if_true]
      rw [ih (c + 1) (att ++ [i.name]) (fun j hj hjf => h j (List.mem_cons_of_mem i hj) hjf)]
      rw [if_neg (by decide)]
      simp only [Prod.mk.injEq, List.length_cons, List.map_cons]
      refine ⟨by omega, by simp, trivial⟩

/-- C2 (counterexample): for 3 files where the second source read fails,
the batch is aborted by the shared `try`/`catch`: only 1 file was moved,
the third is never attempted, the message is `BATCH MOVE FAILED` (no
moved count), the tree is not rescanned and the selection survives —
contradicting "reports 2 moved, the tree is rescanned, and the selection
is cleared". -/
theorem c2_abort_counterexample :
    (handleBatchMove
        [⟨"a", true, true, true, true, true⟩,
         ⟨"b", true, false, true, true, true⟩,
         ⟨"c", true, true, true, true, true⟩] true ["a", "b", "c"]) =
      { movedCount := 1, attempted := ["a", "b"], success := false,
        selection := ["a", "b", "c"], rescanned := false,
        errorMsg := some "BATCH MOVE FAILED" } := by
  decide

/-- C2 (amended): entries are attempted in order, but a read/write
failure on one entry aborts the whole batch (only the best-effort
removal of the original is tolerated per entry): later entries are not
attempted, the failure message replaces the moved count, the tree is not
rescanned and the selection is kept.  Only a fully successful batch
reports the count of moved entries, triggers the rescan and clears the
selection; the outcome never depends on the `removeEntry` flags. -/
theorem c2_batch_move_spec (items : List MoveItem) (selection : List String) :
    (items ≠ [] →
      (∀ i ∈ items, i.isFile = true → i.getFileOk = true ∧ i.writeOk = true) →
      handleBatchMove items true selection =
        { movedCount := (items.filter (·.isFile)).length,
          attempted := (items.filter (·.isFile)).map (·.name),
          success := true, selection := [], rescanned := true,
          errorMsg := some ("MOVED " ++ toString (items.filter (·.isFile)).length
            ++ " FILE(S)") }) ∧
    ((handleBatchMove items true selection).success = false →
      (handleBatchMove items true selection).selection = selection ∧
      (handleBatchMove items true selection).rescanned = false) ∧
    (∀ pre i post, items = pre ++ i :: post →
      (∀ j ∈ pre, j.isFile = true → j.getFileOk = true ∧ j.writeOk = true) →
      i.isFile = true → (i.getFileOk && i.writeOk) = false →
      handleBatchMove items true selection =
        { movedCount := (pre.filter (·.isFile)).length,
          attempted := (pre.filter (·.isFile)).map (·.name) ++ [i.name],
          success := false, selection := selection, rescanned := false,
          errorMsg := some "BATCH MOVE FAILED" }) := by
  refine ⟨?_, ?_, ?_⟩
  · intro hne hok
    unfold handleBatchMove
    rw [if_neg (by simp [hne])]
    rw [moveLoop_all_ok items 0 [] hok]
    simp
  · intro hfail
    unfold handleBatchMove at hfail ⊢
    by_cases hguard : items = [] ∨ true = false
    · rw [if_pos (by simpa using hguard)] at hfail ⊢
      exact ⟨rfl, rfl⟩
    · rw [if_neg (by simpa using hguard)] at hfail ⊢
      rcases hml : moveLoop items 0 [] with ⟨c', att', ok⟩
      cases ok
      · exact ⟨rfl, rfl⟩
      · rw [hml] at hfail
        exact Bool.noConfusion hfail
  · intro pre i post hitems hpre hfi hfail
    subst hitems
    unfold handleBatchMove
    rw [if_neg (by simp)]
    rw [moveLoop_append]
    rw [moveLoop_all_ok pre 0 [] hpre]
    have hneg : i.isFile = false ↔ False := by simp [hfi]
    simp only [moveLoop, hfi, hneg, if_false, hfail, Nat.zero_add, List.nil_append]
    rw [if_neg (by decide), if_neg (by decide)]

/-- C2 witness: a fully successful 2-file batch, and an instance of the
abort characterization. -/
theorem c2_batch_move_witness :
    handleBatchMove
        [⟨"a", true, true, true, true, false⟩, ⟨"b", true, true, true, false, true⟩]
        true ["a", "b"] =
      { movedCount := 2, attempted := ["a", "b"], success := true, selection := [],
        rescanned := true, errorMsg := some "MOVED 2 FILE(S)" } :=
  (c2_batch_move_spec
      [⟨"a", true, true, true, true, false⟩, ⟨"b", true, true, true, false, true⟩]
      ["a", "b"]).1 (by decide) (by decide)

/-! ## C3: duration bound monotonicity -/

/-- Absorbing a probe result never lowers `lastMaxDuration`. -/
theorem enrichAbsorb_lastMax_mono (s : EnrichSt) (it : EnrichItem) :
    s.lastMaxDuration ≤ (enrichAbsorb s it).lastMaxDuration := by
  unfold enrichAbsorb
  split
  · dsimp only
    split
    · calc s.lastMaxDuration ≤ it.probe := le_of_lt (by assumption)
        _ ≤ ((⌈it.probe⌉ : ℤ) : ℚ) := by exact_mod_cast Int.le_ceil it.probe
    · exact le_refl _
  · exact le_refl _

/-- Flushing keeps `lastMaxDuration`. -/
theorem enrichFlush_lastMax (s : EnrichSt) (now : ℚ) :
    (enrichFlush s now).lastMaxDuration = s.lastMaxDuration := rfl

/-- Flushing never lowers `bounds.duration.max`, and afterwards the
bound dominates `lastMaxDuration`. -/
theorem enrichFlush_boundsMax (s : EnrichSt) (now : ℚ) :
    s.boundsDurMax ≤ (enrichFlush s now).boundsDurMax ∧
      s.lastMaxDuration ≤ (enrichFlush s now).boundsDurMax := by
  unfold enrichFlush
  dsimp only
  split
  · exact ⟨le_max_left _ _, le_max_right _ _⟩
  · exact ⟨le_refl _, le_of_not_lt (by assumption)⟩

/-- One enrichment step never lowers `lastMaxDuration`. -/
theorem enrichStep_lastMax_mono (s : EnrichSt) (it : EnrichItem) (rem : Nat) :
    s.lastMaxDuration ≤ (enrichStep s it rem).lastMaxDuration := by
  unfold enrichStep
  dsimp only
  split
  · rw [enrichFlush_lastMax]
    exact enrichAbsorb_lastMax_mono s it
  · exact enrichAbsorb_lastMax_mono s it

/-- One enrichment step never lowers `bounds.duration.max`. -/
theorem enrichStep_boundsMax_mono (s : EnrichSt) (it : EnrichItem) (rem : Nat) :
    s.boundsDurMax ≤ (enrichStep s it rem).boundsDurMax := by
  unfold enrichStep
  dsimp only
  have habs : s.boundsDurMax = (enrichAbsorb s it).boundsDurMax := by
    unfold enrichAbsorb; split <;> rfl
  split
  · rw [habs]
    exact (enrichFlush_boundsMax _ _).1
  · exact le_of_eq habs

/-- Draining the queue never lowers `lastMaxDuration`. -/
theorem enrichRun_lastMax_mono (items : List EnrichItem) (s : EnrichSt) :
    s.lastMaxDuration ≤ (enrichRun s items).lastMaxDuration := by
  induction items generalizing s with
  | nil => exact le_refl _
  | cons it rest ih =>
    exact le_trans (enrichStep_lastMax_mono s it rest.length) (ih _)

/-- Draining the queue never lowers `bounds.duration.max`. -/
theorem enrichRun_boundsMax_mono (items : List EnrichItem) (s : EnrichSt) :
    s.boundsDurMax ≤ (enrichRun s items).boundsDurMax := by
  induction items generalizing s with
  | nil => exact le_refl _
  | cons it rest ih =>
    exact le_trans (enrichStep_boundsMax_mono s it rest.length) (ih _)

/-- After a successfully probed item is processed, `lastMaxDuration`
dominates its duration. -/
theorem enrichStep_probe_le_lastMax (s : EnrichSt) (it : EnrichItem) (rem : Nat)
    (h : 0 < it.probe) :
    it.probe ≤ (enrichStep s it rem).lastMaxDuration := by
  have habs : it.probe ≤ (enrichAbsorb s it).lastMaxDuration := by
    unfold enrichAbsorb
    rw [if_pos h]
    dsimp only
    split
    · exact_mod_cast Int.le_ceil it.probe
    · exact le_of_not_lt (by assumption)
  unfold enrichStep
  dsimp only
  split
  · rw [enrichFlush_lastMax]
    exact habs
  · exact habs

/-- The drain flush of the final item leaves
`lastMaxDuration ≤ bounds.duration.max`. -/
theorem enrichRun_lastMax_le_boundsMax (items : List EnrichItem) (s : EnrichSt)
    (h : items ≠ []) :
    (enrichRun s items).lastMaxDuration ≤ (enrichRun s items).boundsDurMax := by
  induction items generalizing s with
  | nil => exact absurd rfl h
  | cons it rest ih =>
    rcases Decidable.em (rest = []) with hr | hr
    · subst hr
      show (enrichStep s it 0).lastMaxDuration ≤ (enrichStep s it 0).boundsDurMax
      unfold enrichStep
      dsimp only
      rw [if_pos (by simp [enrichFlushCond])]
      rw [enrichFlush_lastMax]
      exact (enrichFlush_boundsMax _ _).2
    · exact ih _ hr

/-- C3 (counterexample): enrichment does raise `bounds.duration.max` to
120 for a 120-second file, but a subsequent rescan (`refreshFiles`)
unconditionally resets the duration bounds to the `{0, 60}` default, so
`bounds.duration.max >= 120` does NOT survive a rescan that finds only
shorter files — refuting "a rescan never shrinks it either". -/
theorem c3_rescan_resets_counterexample :
    (enrichRun (enrichInit JsMap.empty 60 0) [⟨"long", 120, 0⟩]).boundsDurMax = 120 ∧
      (refreshBounds [⟨"short", "short.wav", some 5, some "audio/wav", some 1⟩]
        { sizeMin := 0, sizeMax := 5, durMin := 0,
          durMax := (enrichRun (enrichInit JsMap.empty 60 0) [⟨"long", 120, 0⟩]).boundsDurMax,
          dateMin := 0, dateMax := 1 }).durMax = 60 ∧
      ¬((60 : ℚ) ≥ 120) := by
  refine ⟨?_, ?_, ?_⟩ <;> with_unfolding_all decide

/-- C3 (amended): during enrichment the duration bound maximum is
monotone non-decreasing — it is widened to (at least) every duration the
pass discovers and never narrowed — but `refreshFiles` resets the
duration bounds of a non-empty scan to the fixed `{min: 0, max: 60}`
default, so the bound does not survive a rescan. -/
theorem c3_duration_bound_monotone (s : EnrichSt) (items : List EnrichItem) :
    (s.boundsDurMax ≤ (enrichRun s items).boundsDurMax) ∧
    (∀ it ∈ items, 0 < it.probe → it.probe ≤ (enrichRun s items).boundsDurMax) ∧
    (∀ (files : List FileEntry) (b : Bounds), files ≠ [] →
      (refreshBounds files b).durMax = 60) := by
  refine ⟨enrichRun_boundsMax_mono items s, ?_, ?_⟩
  · intro it hmem hpos
    induction items generalizing s with
    | nil => exact absurd hmem (List.not_mem_nil it)
    | cons hd tl ih =>
      rcases List.mem_cons.mp hmem with heq | htl
      · subst heq
        have h1 : it.probe ≤ (enrichStep s it tl.length).lastMaxDuration :=
          enrichStep_probe_le_lastMax s it tl.length hpos
        rcases Decidable.em (tl = []) with htl0 | htl0
        · subst htl0
          exact le_trans h1 (enrichRun_lastMax_le_boundsMax [it] s (by simp))
        · exact le_trans h1
            (le_trans (enrichRun_lastMax_mono tl _)
              (enrichRun_lastMax_le_boundsMax tl _ htl0))
      · exact ih _ htl
  · intro files b hne
    unfold refreshBounds
    rw [if_neg hne]

/-- C3 witness: the amended statement at a concrete pass — a 120-second
file raises the bound to at least 120, and a rescan with one short file
resets the duration maximum to 60. -/
theorem c3_duration_bound_monotone_witness :
    ((⟨"long", 120, 0⟩ : EnrichItem) ∈ [(⟨"long", 120, 0⟩ : EnrichItem)]) ∧
      ((0 : ℚ) < 120) ∧
      ([(⟨"short", "short.wav", some 5, some "audio/wav", some 1⟩ : FileEntry)] ≠ []) ∧
      ((120 : ℚ) ≤
        (enrichRun (enrichInit JsMap.empty 60 0) [⟨"long", 120, 0⟩]).boundsDurMax) ∧
      ((refreshBounds [⟨"short", "short.wav", some 5, some "audio/wav", some 1⟩]
          { sizeMin := 0, sizeMax := 5, durMin := 0, durMax := 120,
            dateMin := 0, dateMax := 1 }).durMax = 60) :=
  ⟨by decide, by with_unfolding_all decide, by decide,
   (c3_duration_bound_monotone (enrichInit JsMap.empty 60 0) [⟨"long", 120, 0⟩]).2.1
     ⟨"long", 120, 0⟩ (by decide) (by with_unfolding_all decide),
   (c3_duration_bound_monotone (enrichInit JsMap.empty 60 0) [⟨"long", 120, 0⟩]).2.2
     [⟨"short", "short.wav", some 5, some "audio/wav", some 1⟩]
     { sizeMin := 0, sizeMax := 5, durMin := 0, durMax := 120,
       dateMin := 0, dateMax := 1 } (by decide)⟩

/-! ## C5: enrichment drain -/

/-- Absorbing one probed item updates the effective map at exactly its
id (when the probe succeeded). -/
theorem effDurations_absorb (s : EnrichSt) (it : EnrichItem) (k : String) :
    effDurations (enrichAbsorb s it) k =
      if it.id = k ∧ 0 < it.probe then some it.probe else effDurations s k := by
  unfold enrichAbsorb
  by_cases hp : it.probe > 0
  · rw [if_pos hp]
    unfold effDurations JsMap.mergeOver JsMap.set
    dsimp only
    by_cases hk : k = it.id
    · rw [if_pos hk, if_pos ⟨hk.symm, hp⟩]
    · rw [if_neg hk, if_neg (fun h => hk h.1.symm)]
  · rw [if_neg hp, if_neg (fun h => hp h.2)]

/-- A flush moves the batch into the map without changing the effective
map. -/
theorem effDurations_flush (s : EnrichSt) (now : ℚ) (k : String) :
    effDurations (enrichFlush s now) k = effDurations s k := rfl

/-- The effective map after one step. -/
theorem effDurations_step (s : EnrichSt) (it : EnrichItem) (rem : Nat) (k : String) :
    effDurations (enrichStep s it rem) k =
      if it.id = k ∧ 0 < it.probe then some it.probe else effDurations s k := by
  unfold enrichStep
  dsimp only
  split
  · rw [effDurations_flush]
    exact effDurations_absorb s it k
  · exact effDurations_absorb s it k

/-- The effective map after draining the queue: the queue's own results
shadow the prior effective map. -/
theorem effDurations_run (items : List EnrichItem) :
    ∀ (s : EnrichSt) (k : String),
      effDurations (enrichRun s items) k =
        (match succLookup items k with
         | some v => some v
         | none => effDurations s k) := by
  induction items with
  | nil => intro s k; rfl
  | cons it rest ih =>
    intro s k
    show effDurations (enrichRun (enrichStep s it rest.length) rest) k = _
    rw [ih, effDurations_step]
    cases hsl : succLookup rest k with
    | none =>
      show (if it.id = k ∧ 0 < it.probe then some it.probe else effDurations s k) = _
      unfold succLookup
      rw [hsl]
      dsimp only
      split
      · rfl
      · rfl
    | some v =>
      show some v = _
      unfold succLookup
      rw [hsl]

/-- The final drain flush leaves an empty pending batch. -/
theorem enrichRun_batch_empty (items : List EnrichItem) (h : items ≠ []) :
    ∀ s : EnrichSt, (enrichRun s items).batch = JsMap.empty := by
  induction items with
  | nil => exact absurd rfl h
  | cons it rest ih =>
    intro s
    rcases Decidable.em (rest = []) with hr | hr
    · subst hr
      show (enrichStep s it 0).batch = JsMap.empty
      unfold enrichStep
      dsimp only
      rw [if_pos (by simp [enrichFlushCond])]
      rfl
    · exact ih hr _

/-- Ids not produced by the queue are untouched. -/
theorem succLookup_of_not_mem (items : List EnrichItem) (k : String)
    (h : k ∉ items.map EnrichItem.id) : succLookup items k = none := by
  induction items with
  | nil => rfl
  | cons it rest ih =>
    have hne : it.id ≠ k := fun he => h (by simp [he])
    have hrest : k ∉ rest.map EnrichItem.id := fun hm => h (by simp [hm])
    unfold succLookup
    rw [ih hrest]
    dsimp only
    rw [if_neg (fun hc => hne hc.1)]

/-- With duplicate-free ids, the queue's contribution at a member's id
is exactly its own probe result (if positive). -/
theorem succLookup_nodup_mem (items : List EnrichItem)
    (hnd : (items.map EnrichItem.id).Nodup) (it : EnrichItem) (hmem : it ∈ items) :
    succLookup items it.id = if 0 < it.probe then some it.probe else none := by
  induction items with
  | nil => exact absurd hmem (List.not_mem_nil it)
  | cons hd tl ih =>
    rw [List.map_cons, List.nodup_cons] at hnd
    rcases List.mem_cons.mp hmem with heq | htl
    · subst heq
      have h0 : succLookup tl it.id = none := succLookup_of_not_mem tl it.id hnd.1
      unfold succLookup
      rw [h0]
      dsimp only
      by_cases hp : 0 < it.probe
      · rw [if_pos ⟨rfl, hp⟩, if_pos hp]
      · rw [if_neg (fun hc => hp hc.2), if_neg hp]
    · have hidmem : it.id ∈ tl.map EnrichItem.id := List.mem_map_of_mem EnrichItem.id htl
      have hne : hd.id ≠ it.id := fun he => hnd.1 (he ▸ hidmem)
      unfold succLookup
      rw [ih hnd.2 htl]
      by_cases hp : 0 < it.probe
      · rw [if_pos hp]
      · rw [if_neg hp]
        dsimp only
        rw [if_neg (fun hc => hne hc.1)]

/-- Every key the queue contributes comes from a successfully probed
member. -/
theorem succLookup_some (items : List EnrichItem) (k : String) (v : ℚ) :
    succLookup items k = some v →
      ∃ it ∈ items, it.id = k ∧ it.probe = v ∧ 0 < it.probe := by
  induction items with
  | nil => intro h; exact absurd h (by simp [succLookup])
  | cons hd tl ih =>
    intro h
    unfold succLookup at h
    revert h
    cases hsl : succLookup tl k with
    | some w =>
      intro h
      dsimp only at h
      have hwv : w = v := Option.some.inj h
      subst hwv
      obtain ⟨it, hmem, h1, h2, h3⟩ := ih hsl
      exact ⟨it, List.mem_cons_of_mem hd hmem, h1, h2, h3⟩
    | none =>
      intro h
      dsimp only at h
      by_cases hc : hd.id = k ∧ 0 < hd.probe
      · rw [if_pos hc] at h
        exact ⟨hd, List.mem_cons_self hd tl,
          hc.1, Option.some.inj h, hc.2⟩
      · rw [if_neg hc] at h
        exact absurd h (by simp)

/-- Absorbing does not write. -/
theorem enrichAbsorb_writes (s : EnrichSt) (it : EnrichItem) :
    (enrichAbsorb s it).writes = s.writes := by
  unfold enrichAbsorb; split <;> rfl

/-- Absorbing keeps the flush clock. -/
theorem enrichAbsorb_lastBatchTime (s : EnrichSt) (it : EnrichItem) :
    (enrichAbsorb s it).lastBatchTime = s.lastBatchTime := by
  unfold enrichAbsorb; split <;> rfl

/-- A successful probe grows the batch by one. -/
theorem enrichAbsorb_batchSize_pos (s : EnrichSt) (it : EnrichItem) (h : 0 < it.probe) :
    (enrichAbsorb s it).batchSize = s.batchSize + 1 := by
  unfold enrichAbsorb; rw [if_pos h]

/-- The step in its two explicit shapes. -/
theorem enrichStep_flush_shape (s : EnrichSt) (it : EnrichItem) (rem : Nat)
    (h : enrichFlushCond (enrichAbsorb s it).batchSize (s.now + it.dt)
        (enrichAbsorb s it).lastBatchTime rem = true) :
    enrichStep s it rem = enrichFlush (enrichAbsorb s it) (s.now + it.dt) := by
  unfold enrichStep
  dsimp only
  rw [h]
  rfl

theorem enrichStep_noflush_shape (s : EnrichSt) (it : EnrichItem) (rem : Nat)
    (h : enrichFlushCond (enrichAbsorb s it).batchSize (s.now + it.dt)
        (enrichAbsorb s it).lastBatchTime rem = false) :
    enrichStep s it rem = { enrichAbsorb s it with now := s.now + it.dt } := by
  unfold enrichStep
  dsimp only
  rw [h]
  rfl

/-- A step never loses writes. -/
theorem enrichStep_writes_mono (s : EnrichSt) (it : EnrichItem) (rem : Nat) :
    s.writes ≤ (enrichStep s it rem).writes := by
  cases hc : enrichFlushCond (enrichAbsorb s it).batchSize (s.now + it.dt)
      (enrichAbsorb s it).lastBatchTime rem
  · rw [enrichStep_noflush_shape s it rem hc]
    exact le_of_eq (enrichAbsorb_writes s it).symm
  · rw [enrichStep_flush_shape s it rem hc]
    show s.writes ≤ (enrichAbsorb s it).writes + 1
    rw [enrichAbsorb_writes]
    omega

/-- Draining never loses writes. -/
theorem enrichRun_writes_mono (items : List EnrichItem) :
    ∀ s : EnrichSt, s.writes ≤ (enrichRun s items).writes := by
  induction items with
  | nil => intro s; exact le_refl _
  | cons it rest ih =>
    intro s
    exact le_trans (enrichStep_writes_mono s it rest.length) (ih _)

/-- Draining a non-empty queue issues at least the final drain write. -/
theorem enrichRun_writes_succ (items : List EnrichItem) (h : items ≠ []) :
    ∀ s : EnrichSt, s.writes + 1 ≤ (enrichRun s items).writes := by
  induction items with
  | nil => exact absurd rfl h
  | cons it rest ih =>
    intro s
    rcases Decidable.em (rest = []) with hr | hr
    · subst hr
      show s.writes + 1 ≤ (enrichStep s it 0).writes
      rw [enrichStep_flush_shape s it 0 (by simp [enrichFlushCond])]
      show s.writes + 1 ≤ (enrichAbsorb s it).writes + 1
      rw [enrichAbsorb_writes]
    · calc s.writes + 1 ≤ (enrichStep s it rest.length).writes + 1 := by
            have := enrichStep_writes_mono s it rest.length; omega
        _ ≤ (enrichRun (enrichStep s it rest.length) rest).writes := ih hr _

/-- When every probe succeeds and the batch has room to reach the
20-item flush strictly before the drain, at least two writes happen:
the mid-batch flush and the final drain flush. -/
theorem enrichRun_two_writes (items : List EnrichItem) :
    ∀ s : EnrichSt, (∀ it ∈ items, 0 < it.probe) → s.batchSize ≤ 19 →
      21 ≤ items.length + s.batchSize →
      s.writes + 2 ≤ (enrichRun s items).writes := by
  induction items with
  | nil =>
    intro s _ h1 h2
    simp only [List.length_nil] at h2
    omega
  | cons it rest ih =>
    intro s hall h1 h2
    have hp : 0 < it.probe := hall it (List.mem_cons_self it rest)
    have habs : (enrichAbsorb s it).batchSize = s.batchSize + 1 :=
      enrichAbsorb_batchSize_pos s it hp
    show s.writes + 2 ≤ (enrichRun (enrichStep s it rest.length) rest).writes
    cases hc : enrichFlushCond (enrichAbsorb s it).batchSize (s.now + it.dt)
        (enrichAbsorb s it).lastBatchTime rest.length
    · -- no flush at this item: the batch keeps growing
      have hbs : ¬(20 ≤ (enrichAbsorb s it).batchSize) := by
        intro hge
        unfold enrichFlushCond at hc
        simp [hge] at hc
      have hr0 : rest.length ≠ 0 := by
        intro h0
        unfold enrichFlushCond at hc
        simp [h0] at hc
      rw [enrichStep_noflush_shape s it rest.length hc]
      have hw := ih { enrichAbsorb s it with now := s.now + it.dt }
        (fun j hj => hall j (List.mem_cons_of_mem it hj))
        (by show (enrichAbsorb s it).batchSize ≤ 19; omega)
        (by show 21 ≤ rest.length + (enrichAbsorb s it).batchSize
            rw [habs]
            simp only [List.length_cons] at h2
            omega)
      have hwr : ({ enrichAbsorb s it with now := s.now + it.dt } : EnrichSt).writes
          = s.writes := enrichAbsorb_writes s it
      omega
    · -- this item flushes; the drain of the (non-empty) rest flushes again
      rw [enrichStep_flush_shape s it rest.length hc]
      have hrest : rest ≠ [] := by
        intro h0
        subst h0
        simp only [List.length_cons, List.length_nil] at h2
        omega
      have h3 := enrichRun_writes_succ rest hrest (enrichFlush (enrichAbsorb s it) (s.now + it.dt))
      have h4 : (enrichFlush (enrichAbsorb s it) (s.now + it.dt)).writes = s.writes + 1 := by
        show (enrichAbsorb s it).writes + 1 = s.writes + 1
        rw [enrichAbsorb_writes]
      omega

set_option maxRecDepth 100000 in
/-- C5 (counterexample): a 25-file pass with no cached durations in
which only the first 10 probes succeed (and which runs inside the 500ms
flush window) issues exactly ONE persisted write — the final drain
flush — because the batch counts successful probes, never reaches 20,
and the timer clause never fires.  This refutes "the persisted cache is
written at least twice". -/
theorem c5_single_write_counterexample :
    ((List.range 25).map (fun i =>
        (⟨"f" ++ toString i, if i < 10 then 5 else 0, 0⟩ : EnrichItem))).length = 25 ∧
      (enrichRun (enrichInit JsMap.empty 60 0)
        ((List.range 25).map (fun i =>
          (⟨"f" ++ toString i, if i < 10 then 5 else 0, 0⟩ : EnrichItem)))).writes = 1 ∧
      ¬(2 ≤ (enrichRun (enrichInit JsMap.empty 60 0)
        ((List.range 25).map (fun i =>
          (⟨"f" ++ toString i, if i < 10 then 5 else 0, 0⟩ : EnrichItem)))).writes) := by
  refine ⟨by decide, ?_, ?_⟩ <;> with_unfolding_all decide

/-- C5 (amended): after the queue drains, the duration map contains
exactly the entries whose probe succeeded within the timeout (failure or
timeout yields 0 and the entry stays unknown); and the persisted cache
is written at least twice — one flush when the batch reaches 20
*successful* probes and one final drain flush — provided the probes
succeed (in particular when all 25 do).  With fewer than 20 successes
and no 500ms window elapsing, only the single drain write happens. -/
theorem c5_enrichment_drain (items : List EnrichItem) (bMax t0 : ℚ)
    (hnd : (items.map EnrichItem.id).Nodup) :
    (∀ it ∈ items,
        (enrichRun (enrichInit JsMap.empty bMax t0) items).durations it.id =
          if 0 < it.probe then some it.probe else none) ∧
    (∀ (k : String) (v : ℚ),
        (enrichRun (enrichInit JsMap.empty bMax t0) items).durations k = some v →
        ∃ it ∈ items, it.id = k ∧ it.probe = v ∧ 0 < it.probe) ∧
    (items.length = 25 → (∀ it ∈ items, 0 < it.probe) →
        2 ≤ (enrichRun (enrichInit JsMap.empty bMax t0) items).writes) := by
  refine ⟨?_, ?_, ?_⟩
  · intro it hmem
    have hne : items ≠ [] := List.ne_nil_of_mem hmem
    have hbatch := enrichRun_batch_empty items hne (enrichInit JsMap.empty bMax t0)
    have hdur : (enrichRun (enrichInit JsMap.empty bMax t0) items).durations it.id =
        effDurations (enrichRun (enrichInit JsMap.empty bMax t0) items) it.id := by
      unfold effDurations JsMap.mergeOver
      rw [hbatch]
      rfl
    rw [hdur, effDurations_run, succLookup_nodup_mem items hnd it hmem]
    by_cases hp : 0 < it.probe
    · rw [if_pos hp]
    · rw [if_neg hp]
      rfl
  · intro k v hkv
    rcases Decidable.em (items = []) with hnil | hne
    · subst hnil
      exact absurd hkv (by simp [enrichRun, enrichInit, JsMap.empty])
    · have hbatch := enrichRun_batch_empty items hne (enrichInit JsMap.empty bMax t0)
      have hdur : (enrichRun (enrichInit JsMap.empty bMax t0) items).durations k =
          effDurations (enrichRun (enrichInit JsMap.empty bMax t0) items) k := by
        unfold effDurations JsMap.mergeOver
        rw [hbatch]
        rfl
      rw [hdur, effDurations_run] at hkv
      revert hkv
      cases hsl : succLookup items k with
      | some w =>
        intro hkv
        dsimp only at hkv
        have : w = v := Option.some.inj hkv
        subst this
        exact succLookup_some items k w hsl
      | none =>
        intro hkv
        dsimp only at hkv
        have hinit : effDurations (enrichInit JsMap.empty bMax t0) k = none := rfl
        rw [hinit] at hkv
        exact Option.noConfusion hkv
  · intro h25 hall
    have := enrichRun_two_writes items (enrichInit JsMap.empty bMax t0) hall
      (by show (0 : Nat) ≤ 19; omega)
      (by show 21 ≤ items.length + 0; omega)
    simpa [enrichInit] using this

/-- C5 witness: 25 files with duplicate-free ids and all probes
succeeding — the amended statement applies and yields at least two
persisted writes. -/
theorem c5_enrichment_drain_witness :
    ((((List.range 25).map (fun i => (⟨"f" ++ toString i, 5, 0⟩ : EnrichItem))).map
        EnrichItem.id).Nodup) ∧
      2 ≤ (enrichRun (enrichInit JsMap.empty 60 0)
        ((List.range 25).map (fun i => (⟨"f" ++ toString i, 5, 0⟩ : EnrichItem)))).writes :=
  ⟨by with_unfolding_all decide,
   (c5_enrichment_drain
      ((List.range 25).map (fun i => (⟨"f" ++ toString i, 5, 0⟩ : EnrichItem))) 60 0
      (by with_unfolding_all decide)).2.2 (by decide)
      (by with_unfolding_all decide)⟩

/-! ## C1: playback generation race -/

/-- A scheduled step of task A is the application of its next segment. -/
theorem pbStep_a (c : PbCfg) (a : PbAct) (rest : List PbAct) (h : c.ta.rem = a :: rest) :
    pbStep c true = { (applyAct c c.ta a rest).1 with ta := (applyAct c c.ta a rest).2 } := by
  simp [pbStep, stepTask, h]

/-- A scheduled step of task B is the application of its next segment. -/
theorem pbStep_b (c : PbCfg) (a : PbAct) (rest : List PbAct) (h : c.tb.rem = a :: rest) :
    pbStep c false = { (applyAct c c.tb a rest).1 with tb := (applyAct c c.tb a rest).2 } := by
  simp [pbStep, stepTask, h]

/-- The race invariant holds initially. -/
theorem pbInit_inv (n : Nat) : PbInv n (pbInit n) := by
  refine ⟨rfl, rfl, rfl, Or.inl rfl, Or.inl ⟨rfl, rfl⟩, ?_, ?_⟩
  · intro h
    exact List.noConfusion h
  · intro h
    rcases h with h | h <;> simp [pbInit] at h

/-- The race invariant is preserved by every scheduler step. -/
theorem pbStep_inv (n : Nat) (c : PbCfg) (hinv : PbInv n c) (w : Bool) :
    PbInv n (pbStep c w) := by
  obtain ⟨hA, hB, hg, hta, htb, hwf, hpl⟩ := hinv
  cases w
  · -- a step of task B
    rcases htb with ⟨hbrem, hcnt⟩ | ⟨hcnt, hbg, hbrem⟩
    · -- B has not started: its next segment is the synchronous bump
      rw [pbStep_b c PbAct.bump _ hbrem]
      simp only [applyAct]
      exact ⟨hA, hB, hg, hta,
        Or.inr ⟨by rw [hcnt], by rw [hcnt], Or.inl rfl⟩,
        fun h => List.noConfusion h,
        fun h => by rcases h with h | h <;> simp at h⟩
    · rcases hbrem with h1 | h2 | h3 | h4
      · -- B commits activeId := "B"
        rw [pbStep_b c PbAct.commitActive _ h1]
        simp only [applyAct]
        exact ⟨hA, hB, hg, hta, Or.inr ⟨hcnt, hbg, Or.inr (Or.inl rfl)⟩,
          fun h => List.noConfusion h,
          fun h => by rcases h with h | h <;> simp at h⟩
      · -- B sets playing and passes its generation check
        rw [pbStep_b c PbAct.playCheck _ h2]
        simp only [applyAct]
        rw [if_pos (by rw [hbg, hcnt])]
        exact ⟨hA, hB, hg, hta, Or.inr ⟨hcnt, hbg, Or.inr (Or.inr (Or.inl rfl))⟩,
          fun h => List.noConfusion h, fun _ => rfl⟩
      · -- B passes its post-decode check and commits its waveform
        rw [pbStep_b c PbAct.checkWave _ h3]
        simp only [applyAct]
        rw [if_pos (by rw [hbg, hcnt])]
        exact ⟨hA, hB, hg, hta, Or.inr ⟨hcnt, hbg, Or.inr (Or.inr (Or.inr rfl))⟩,
          fun _ => by rw [hB], fun _ => hpl (Or.inl h3)⟩
      · -- B is done: the step is a no-op
        have : pbStep c false = c := by
          simp [pbStep, stepTask, h4]
        rw [this]
        exact ⟨hA, hB, hg, hta, Or.inr ⟨hcnt, hbg, Or.inr (Or.inr (Or.inr h4))⟩, hwf, hpl⟩
  · -- a step of task A
    rcases hta with h1 | h2 | h3 | h4
    · -- A commits activeId := "A" (no generation check before it)
      rw [pbStep_a c PbAct.commitActive _ h1]
      simp only [applyAct]
      exact ⟨hA, hB, hg, Or.inr (Or.inl rfl), htb, hwf, hpl⟩
    · -- A sets playing, then checks its generation
      rw [pbStep_a c PbAct.playCheck _ h2]
      simp only [applyAct]
      rcases htb with ⟨hbrem, hcnt⟩ | ⟨hcnt, hbg, hbrem⟩
      · -- B not started: the check passes
        rw [if_pos (by rw [hg, hcnt])]
        exact ⟨hA, hB, hg, Or.inr (Or.inr (Or.inl rfl)), Or.inl ⟨hbrem, hcnt⟩, hwf, fun _ => rfl⟩
      · -- B has bumped: A is stale and aborts
        rw [if_neg (by rw [hg, hcnt]; omega)]
        exact ⟨hA, hB, hg, Or.inr (Or.inr (Or.inr rfl)), Or.inr ⟨hcnt, hbg, hbrem⟩, hwf,
          fun _ => rfl⟩
    · -- A reaches its post-decode check
      rw [pbStep_a c PbAct.checkWave _ h3]
      simp only [applyAct]
      rcases htb with ⟨hbrem, hcnt⟩ | ⟨hcnt, hbg, hbrem⟩
      · -- B not started: A commits its own waveform (B will overwrite)
        rw [if_pos (by rw [hg, hcnt])]
        exact ⟨hA, hB, hg, Or.inr (Or.inr (Or.inr rfl)), Or.inl ⟨hbrem, hcnt⟩,
          fun h => by rw [h] at hbrem; exact List.noConfusion hbrem, hpl⟩
      · -- B has bumped: A is stale, aborts, commits nothing
        rw [if_neg (by rw [hg, hcnt]; omega)]
        exact ⟨hA, hB, hg, Or.inr (Or.inr (Or.inr rfl)), Or.inr ⟨hcnt, hbg, hbrem⟩, hwf, hpl⟩
    · -- A is done
      have : pbStep c true = c := by
        simp [pbStep, stepTask, h4]
      rw [this]
      exact ⟨hA, hB, hg, Or.inr (Or.inr (Or.inr h4)), htb, hwf, hpl⟩

/-- The race invariant holds after any schedule. -/
theorem pbRun_inv (n : Nat) (σ : List Bool) (c : PbCfg) (hinv : PbInv n c) :
    PbInv n (pbRun c σ) := by
  induction σ generalizing c with
  | nil => exact hinv
  | cons w σ ih => exact ih _ (pbStep_inv n c hinv w)

/-- C1 (counterexample): the schedule in which `play("B")` runs to
completion while `play("A")` is still suspended in its file open, and A
then resumes, ends with BOTH loads complete but `activeId = "A"`: the
stale task re-checks the generation only after `setActiveFileId` and
`setIsPlaying` have already run, so a superseded load does mutate
`activeId`, refuting "at every suspension point (file open, decode) it
re-checks ... and, if stale, abandons without mutating activeId". -/
theorem c1_stale_commit_counterexample :
    (pbRun (pbInit 0) (pbOvertake 0)).ta.rem = [] ∧
      (pbRun (pbInit 0) (pbOvertake 0)).tb.rem = [] ∧
      (pbRun (pbInit 0) (pbOvertake 0)).activeId = some "A" ∧
      ¬(pbRun (pbInit 0) (pbOvertake 0)).activeId = some "B" := by
  decide

/-- C1 (amended): `playFile` checks its generation only at two points —
after the audio-element setup (together with `setIsPlaying`) and after
the decode — so a superseded load may still commit `activeId` and the
playing flag.  What does hold: (1) for EVERY interleaving of the two
overlapping loads in which both complete, the committed waveform is B's
(a stale task never commits waveform data), and the playing flag is
set; (2) whenever A had already committed `activeId` before `play(B)`
started — in particular in the slow-decode race of the claim — the
final `activeId` is B's id. -/
theorem c1_generation_race :
    (∀ (n : Nat) (σ : List Bool),
        (pbRun (pbInit n) σ).ta.rem = [] → (pbRun (pbInit n) σ).tb.rem = [] →
        (pbRun (pbInit n) σ).waveform = some "B" ∧
          (pbRun (pbInit n) σ).playing = true) ∧
    (∀ p : Nat, 1 ≤ p → p ≤ 3 →
        (pbRun (pbInit 0) (pbOvertake p)).activeId = some "B" ∧
          (pbRun (pbInit 0) (pbOvertake p)).waveform = some "B" ∧
          (pbRun (pbInit 0) (pbOvertake p)).ta.rem = [] ∧
          (pbRun (pbInit 0) (pbOvertake p)).tb.rem = []) := by
  constructor
  · intro n σ _ hbdone
    obtain ⟨_, _, _, _, _, hwf, hpl⟩ := pbRun_inv n σ (pbInit n) (pbInit_inv n)
    exact ⟨hwf hbdone, hpl (Or.inr hbdone)⟩
  · intro p h1 h3
    interval_cases p <;> exact (by decide)

/-- C1 witness: a concrete completing schedule for the universal part,
and the slow-decode overlap (`p = 2`) for the second. -/
theorem c1_generation_race_witness :
    ((pbRun (pbInit 0) [false, false, false, false, true, true, true]).waveform = some "B" ∧
      (pbRun (pbInit 0) [false, false, false, false, true, true, true]).playing = true) ∧
      ((pbRun (pbInit 0) (pbOvertake 2)).activeId = some "B" ∧
        (pbRun (pbInit 0) (pbOvertake 2)).waveform = some "B" ∧
        (pbRun (pbInit 0) (pbOvertake 2)).ta.rem = [] ∧
        (pbRun (pbInit 0) (pbOvertake 2)).tb.rem = []) :=
  ⟨c1_generation_race.1 0 [false, false, false, false, true, true, true]
      (by decide) (by decide),
   c1_generation_race.2 2 (by decide) (by decide)⟩

/-! ## C9: next/previous index arithmetic -/

/-- A found index is within bounds. -/
theorem findIdxOpt_lt_length {α : Type} (p : α → Bool) :
    ∀ (l : List α) (i : Nat), findIdxOpt p l = some i → i < l.length := by
  intro l
  induction l with
  | nil => intro i h; exact absurd h (by simp [findIdxOpt])
  | cons x xs ih =>
    intro i h
    unfold findIdxOpt at h
    revert h
    split
    · intro h
      have : 0 = i := Option.some.inj h
      subst this
      simp
    · intro h
      revert h
      cases hx : findIdxOpt p xs with
      | none => intro h; exact absurd h (by simp)
      | some j =>
        intro h
        have : j + 1 = i := Option.some.inj h
        subst this
        have := ih j hx
        simp only [List.length_cons]
        omega

/-- The `findIndex` result is either `-1` or an in-range index. -/
theorem jsFindIndex_bounds (files : List String) (activeId : Option String) :
    -1 ≤ jsFindIndex files activeId ∧ jsFindIndex files activeId < files.length ∨
      jsFindIndex files activeId = -1 := by
  unfold jsFindIndex
  cases hf : findIdxOpt (fun f => activeId = some f) files with
  | none =>
    right
    rfl
  | some i =>
    left
    have := findIdxOpt_lt_length _ files i hf
    dsimp only
    constructor
    · omega
    · exact_mod_cast this

/-- The remainder used by wrap-around indexing lands inside the list:
the dividend is non-negative except in the single case `-1 % 1`, where
JS yields `-0` (index 0). -/
theorem tmod_index_bounds (d : Int) (len : Nat) (hlen : 0 < len)
    (h : 0 ≤ d ∨ (d = -1 ∧ len = 1)) :
    0 ≤ d.tmod len ∧ d.tmod len < len := by
  rcases h with hd | ⟨hd, hl⟩
  · exact ⟨Int.tmod_nonneg _ hd, Int.tmod_lt_of_pos d (by exact_mod_cast hlen)⟩
  · subst hd
    subst hl
    constructor <;> decide

/-- Mapping preserves definedness. -/
theorem optionMap_isSome {α β : Type} (f : α → β) (o : Option α) :
    (o.map f).isSome = o.isSome := by
  cases o <;> rfl

/-- In-range indexing succeeds. -/
theorem jsIndex_isSome (files : List String) (m : Int) (h0 : 0 ≤ m)
    (h1 : m < files.length) : (jsIndex files m).isSome = true := by
  unfold jsIndex
  rw [if_neg (by omega)]
  have hm : m.toNat < files.length := by omega
  rw [List.get?_eq_get hm]
  rfl

/-- C9: with shuffle off (and looping off), `playNext` plays the entry
at `(currentIndex + 1) mod length` and `playPrev` the one at
`(currentIndex - 1 + length) mod length`, where `currentIndex` is the
`findIndex` result (`-1` when the active entry is not in the list); the
wrap-around index is always in range, so the advance/retreat is
well-defined; with 3 entries, advancing from index 1 selects index 2,
advancing from index 2 wraps to 0, and retreating from index 0 wraps to
index 2. -/
theorem c9_advance_retreat (files : List String) (activeId : Option String)
    (p force : Bool) (draw : Nat) (h : files ≠ []) :
    (playNext files activeId false false p force draw =
      (jsIndex files ((jsFindIndex files activeId + 1).tmod files.length)).map
        (fun f => (f, if force then p else true))) ∧
    ((playNext files activeId false false p force draw).isSome = true) ∧
    (playPrev files activeId false p draw =
      (jsIndex files ((jsFindIndex files activeId - 1 + files.length).tmod
          files.length)).map (fun f => (f, p))) ∧
    ((playPrev files activeId false p draw).isSome = true) ∧
    (playNext ["a", "b", "c"] (some "b") false false true true 0 = some ("c", true)) ∧
    (playNext ["a", "b", "c"] (some "c") false false true true 0 = some ("a", true)) ∧
    (playPrev ["a", "b", "c"] (some "a") false true 0 = some ("c", true)) := by
  have hlen0 : ¬(files.length = 0) := fun h0 => h (List.length_eq_zero.mp h0)
  have hlenpos : 0 < files.length := Nat.pos_of_ne_zero hlen0
  have hb : -1 ≤ jsFindIndex files activeId ∧
      jsFindIndex files activeId < (files.length : Int) := by
    rcases jsFindIndex_bounds files activeId with ⟨a, b⟩ | hneg
    · exact ⟨a, b⟩
    · rw [hneg]
      omega
  have e1 : playNext files activeId false false p force draw =
      (jsIndex files ((jsFindIndex files activeId + 1).tmod files.length)).map
        (fun f => (f, if force then p else true)) := by
    simp [playNext, hlen0]
  have hnextm := tmod_index_bounds (jsFindIndex files activeId + 1) files.length hlenpos
    (Or.inl (by omega))
  have e3 : playPrev files activeId false p draw =
      (jsIndex files ((jsFindIndex files activeId - 1 + files.length).tmod
          files.length)).map (fun f => (f, p)) := by
    simp [playPrev, hlen0]
  have hprevm := tmod_index_bounds (jsFindIndex files activeId - 1 + files.length)
    files.length hlenpos (by omega)
  refine ⟨e1, ?_, e3, ?_, by decide, by decide, by decide⟩
  · rw [e1, optionMap_isSome]
    exact jsIndex_isSome files _ hnextm.1 hnextm.2
  · rw [e3, optionMap_isSome]
    exact jsIndex_isSome files _ hprevm.1 hprevm.2

/-- C9 witness: the wrap-around formulas and examples at a concrete
4-entry list whose active entry is absent (index `-1`). -/
theorem c9_advance_retreat_witness :
    playNext ["w", "x", "y", "z"] (some "q") false false false true 0 =
        (jsIndex ["w", "x", "y", "z"]
          ((jsFindIndex ["w", "x", "y", "z"] (some "q") + 1).tmod 4)).map
          (fun f => (f, false)) ∧
      (playPrev ["w", "x", "y", "z"] (some "q") false true 0).isSome = true :=
  ⟨((c9_advance_retreat ["w", "x", "y", "z"] (some "q") false true 0
      (by decide)).1),
   ((c9_advance_retreat ["w", "x", "y", "z"] (some "q") true true 0
      (by decide)).2.2.2.1)⟩

/-! ## C7: AND semantics of the query terms -/

/-- Tokenizing around an interior whitespace separator splits into the
two sides' tokens. -/
theorem tokensAux_append_ws (sep : Char) (hsep : isWS sep = true) (l₂ : List Char) :
    ∀ (l₁ cur : List Char),
      tokensAux (l₁ ++ sep :: l₂) cur = tokensAux l₁ cur ++ tokensAux l₂ [] := by
  intro l₁
  induction l₁ with
  | nil =>
    intro cur
    show tokensAux (sep :: l₂) cur = tokensAux [] cur ++ tokensAux l₂ []
    by_cases hc : cur = [] <;> simp [tokensAux, hsep, hc]
  | cons c rest ih =>
    intro cur
    show tokensAux (c :: (rest ++ sep :: l₂)) cur = tokensAux (c :: rest) cur ++ tokensAux l₂ []
    by_cases hwc : isWS c
    · by_cases hc : cur = [] <;> simp [tokensAux, hwc, hc, ih]
    · simp [tokensAux, hwc, ih]

/-- A character list whose entries are all whitespace has no tokens. -/
theorem tokensAux_all_ws (l : List Char) (h : ∀ c ∈ l, isWS c = true) :
    tokensAux l [] = [] := by
  induction l with
  | nil => rfl
  | cons c rest ih =>
    have hc := h c (List.mem_cons_self c rest)
    simp only [tokensAux, hc, if_pos rfl, if_true]
    exact ih (fun d hd => h d (List.mem_cons_of_mem c hd))

/-- An empty trim means every character is whitespace. -/
theorem jsTrim_empty_all_ws (q : String) (h : jsTrim q = "") :
    ∀ c ∈ q.data, isWS c = true := by
  have hl : jsTrimL q.data = [] := by
    unfold jsTrim at h
    exact congrArg String.data h
  unfold jsTrimL at hl
  have h2 : (q.data.dropWhile isWS).reverse.dropWhile isWS = [] := by
    rw [← List.reverse_eq_nil_iff]
    simpa using hl
  have h3 : ∀ c ∈ (q.data.dropWhile isWS).reverse, isWS c = true :=
    List.dropWhile_eq_nil_iff.mp h2
  have h4 : ∀ c ∈ q.data.dropWhile isWS, isWS c = true := by
    intro c hc
    exact h3 c (List.mem_reverse.mpr hc)
  intro c hc
  rw [← List.takeWhile_append_dropWhile (p := isWS) (l := q.data)] at hc
  rcases List.mem_append.mp hc with h5 | h5
  · exact List.mem_takeWhile_imp h5
  · exact h4 c h5

/-- Evaluation of `matchSmartSearch` is the conjunction of its terms' matches (an
empty trim produces no terms, hence `true`). -/
theorem matchSmartSearch_eq_all (text q : String) :
    matchSmartSearch text q = (queryTerms q).all (matchTerm text) := by
  unfold matchSmartSearch
  split
  · rename_i htrim
    have : wsTokens q.data = [] :=
      tokensAux_all_ws q.data (jsTrim_empty_all_ws q htrim)
    rw [queryTerms, this]
    rfl
  · rfl

/-- C7: for all texts and query pairs, matching the whitespace-joined
query is the conjunction of the individual matches; and an empty or
whitespace-only query matches every text. -/
theorem c7_query_and_semantics (text q1 q2 : String) :
    (matchSmartSearch text (q1 ++ " " ++ q2) =
      (matchSmartSearch text q1 && matchSmartSearch text q2)) ∧
    (∀ q : String, jsTrim q = "" → matchSmartSearch text q = true) := by
  constructor
  · rw [matchSmartSearch_eq_all, matchSmartSearch_eq_all, matchSmartSearch_eq_all]
    have hdata : (q1 ++ " " ++ q2).data = q1.data ++ ' ' :: q2.data := by
      show (q1.data ++ (" " : String).data) ++ q2.data = q1.data ++ ' ' :: q2.data
      simp
    have htok : queryTerms (q1 ++ " " ++ q2) = queryTerms q1 ++ queryTerms q2 := by
      unfold queryTerms wsTokens
      rw [hdata, tokensAux_append_ws ' ' (by decide) q2.data q1.data [], List.map_append]
    rw [htok, List.all_append]
  · intro q hq
    unfold matchSmartSearch
    rw [if_pos hq]

/-- C7 witness: the conjunction law at concrete queries and the
whitespace-only query matching a concrete text. -/
theorem c7_query_and_semantics_witness :
    (matchSmartSearch "kick_drum.wav" ("kick" ++ " " ++ "-snare") =
      (matchSmartSearch "kick_drum.wav" "kick" && matchSmartSearch "kick_drum.wav" "-snare")) ∧
      (jsTrim "  " = "") ∧
      matchSmartSearch "kick_drum.wav" "  " = true :=
  ⟨(c7_query_and_semantics "kick_drum.wav" "kick" "-snare").1,
   by decide,
   (c7_query_and_semantics "kick_drum.wav" "x" "y").2 "  " (by decide)⟩

/-! ## C8: term forms of the smart search -/

/-- C8: a `-`-prefixed term excludes — it fails exactly when the
remainder is a case-insensitive substring of the text, and an empty
remainder always passes (general, for every text and remainder); the
four concrete spec examples; regex terms default to the
case-insensitive flag when none is given (explicit flags replace the
default); and an invalid pattern falls back to a plain case-insensitive
substring match of the raw term.  (Regex terms are evaluated against
the modelled fragment of the external JS `RegExp` capability.) -/
theorem c8_exclusion_regex_fallback (text rest : String) :
    (matchTerm text ("-" ++ rest) =
      (if jsToLower rest = "" then true
       else !(jsIncludes (jsToLower text) (jsToLower rest)))) ∧
    (matchSmartSearch "drum_loop.wav" "-kick" = true) ∧
    (matchSmartSearch "kick_drum.wav" "-kick" = false) ∧
    (matchSmartSearch "Snare_Top.wav" "/^snare/i" = true) ∧
    (matchSmartSearch "Top_Snare.wav" "/^snare/i" = false) ∧
    (matchSmartSearch "SNARE_TOP.wav" "/snare/" = true) ∧
    (matchSmartSearch "SNARE_TOP.wav" "/snare/g" = false) ∧
    (matchSmartSearch "x/(b/y" "/(b/" = true) ∧
    (matchSmartSearch "abc" "/(b/" = false) := by
  refine ⟨?_, by decide, by decide, by decide, by decide, by decide, by decide,
    by decide, by decide⟩
  have hdata : ("-" ++ rest).data = '-' :: rest.data := rfl
  have hsub : jsSubstringFrom ("-" ++ rest) 1 = rest := by
    unfold jsSubstringFrom
    rw [hdata]
    rfl
  have hstart : jsStartsWith ("-" ++ rest) "-" = true := by
    unfold jsStartsWith
    rw [hdata, show "-".data = ['-'] from rfl]
    simp [List.isPrefixOf]
  unfold matchTerm
  rw [if_pos hstart, hsub]

/-! ## C6: sorting -/

/-- The flat comparator is `≤ 0` exactly on ascending key order. -/
theorem jsCmpVal_asc_le {K : Type} [LinearOrder K] (x y : K) :
    jsCmpVal SortOrder.asc x y ≤ 0 ↔ x ≤ y := by
  unfold jsCmpVal
  by_cases h1 : x < y
  · rw [if_pos h1, if_pos rfl]
    simp [le_of_lt h1]
  · rw [if_neg h1]
    by_cases h2 : x > y
    · rw [if_pos h2, if_pos rfl]
      simp [not_le_of_lt h2]
    · rw [if_neg h2]
      simp [le_of_not_lt h2]

/-- Descending order flips the comparator's sense. -/
theorem jsCmpVal_desc_le {K : Type} [LinearOrder K] (x y : K) :
    jsCmpVal SortOrder.desc x y ≤ 0 ↔ y ≤ x := by
  unfold jsCmpVal
  by_cases h1 : x < y
  · rw [if_pos h1, if_neg (by decide)]
    simp [not_le_of_lt h1]
  · rw [if_neg h1]
    by_cases h2 : x > y
    · rw [if_pos h2, if_neg (by decide)]
      simp [le_of_lt h2]
    · rw [if_neg h2]
      simp [le_of_not_lt h1]

/-- The flat comparator returns `0` exactly on equal keys. -/
theorem jsCmpVal_eq_zero {K : Type} [LinearOrder K] (o : SortOrder) (x y : K) :
    jsCmpVal o x y = 0 ↔ x = y := by
  unfold jsCmpVal
  by_cases h1 : x < y
  · rw [if_pos h1]
    constructor
    · intro h
      cases o <;> simp_all
    · intro h
      exact absurd h (ne_of_lt h1)
  · rw [if_neg h1]
    by_cases h2 : x > y
    · rw [if_pos h2]
      constructor
      · intro h
        cases o <;> simp_all
      · intro h
        exact absurd h.symm (ne_of_lt h2)
    · rw [if_neg h2]
      simp [le_antisymm (le_of_not_lt h2) (le_of_not_lt h1)]

/-- Off ties, the tree comparator agrees with the flat comparator. -/
theorem jsTreeCmpVal_eq_of_ne {K : Type} [LinearOrder K] (o : SortOrder) (x y : K)
    (h : x ≠ y) : jsTreeCmpVal o x y = jsCmpVal o x y := by
  unfold jsTreeCmpVal jsCmpVal
  by_cases h1 : x < y
  · rw [if_pos h1, if_pos h1]
  · have h2 : x > y := lt_of_le_of_ne (le_of_not_lt h1) h.symm
    rw [if_neg h1, if_neg h1, if_pos h2]

/-- Inserting into a list does not disturb the subsequence of entries
carrying any fixed key value: an element is inserted before a passed-over
element only when its key is strictly smaller, so same-key runs keep
their order. -/
theorem orderedInsert_filter_key {α K : Type} [LinearOrder K] (key : α → K)
    (r : α → α → Prop) [DecidableRel r] (hr : ∀ a b, r a b ↔ key a ≤ key b)
    (v : K) (x : α) (l : List α) :
    (List.orderedInsert r x l).filter (fun a => decide (key a = v)) =
      (if key x = v then x :: l.filter (fun a => decide (key a = v))
       else l.filter (fun a => decide (key a = v))) := by
  induction l with
  | nil =>
    show [x].filter (fun a => decide (key a = v)) = _
    by_cases hx : key x = v
    · rw [if_pos hx]
      simp [List.filter, hx]
    · rw [if_neg hx]
      simp [List.filter, hx]
  | cons y ys ih =>
    show (if r x y then x :: y :: ys else y :: List.orderedInsert r x ys).filter _ = _
    by_cases hxy : r x y
    · rw [if_pos hxy]
      by_cases hx : key x = v
      · rw [if_pos hx]
        simp [List.filter, hx]
      · rw [if_neg hx]
        simp [List.filter, hx]
    · rw [if_neg hxy]
      have hky : key y < key x := by
        rw [hr] at hxy
        exact lt_of_not_le hxy
      by_cases hx : key x = v
      · rw [if_pos hx]
        have hyv : ¬(key y = v) := fun he => absurd (hx ▸ he ▸ hky) (lt_irrefl _)
        rw [List.filter_cons, List.filter_cons]
        simp only [hyv, decide_eq_true_eq, if_neg hyv, decide_eq_false hyv]
        rw [ih, if_pos hx]
        simp
      · rw [if_neg hx]
        rw [List.filter_cons, List.filter_cons]
        rw [ih, if_neg hx]

/-- Stability of the flat sort, phrased through filters: the entries
whose key equals any fixed value appear in the sorted output in their
input order. -/
theorem insertionSort_filter_key {α K : Type} [LinearOrder K] (key : α → K)
    (r : α → α → Prop) [DecidableRel r] (hr : ∀ a b, r a b ↔ key a ≤ key b)
    (v : K) (l : List α) :
    (List.insertionSort r l).filter (fun a => decide (key a = v)) =
      l.filter (fun a => decide (key a = v)) := by
  induction l with
  | nil => rfl
  | cons x xs ih =>
    show (List.orderedInsert r x (List.insertionSort r xs)).filter _ = _
    rw [orderedInsert_filter_key key r hr v x (List.insertionSort r xs)]
    by_cases hx : key x = v
    · rw [if_pos hx, ih, List.filter_cons]
      simp [hx]
    · rw [if_neg hx, ih, List.filter_cons]
      simp [hx]

/-- Sorting an already sorted list is the identity (the comparator
induces a total preorder). -/
theorem insertionSort_key_idem {α K : Type} [LinearOrder K] (key : α → K)
    (r : α → α → Prop) [DecidableRel r] (hr : ∀ a b, r a b ↔ key a ≤ key b)
    (l : List α) :
    List.insertionSort r (List.insertionSort r l) = List.insertionSort r l := by
  haveI : IsTotal α r := ⟨fun a b => by rw [hr, hr]; exact le_total _ _⟩
  haveI : IsTrans α r := ⟨fun a b c h1 h2 => by
    rw [hr] at h1 h2 ⊢
    exact le_trans h1 h2⟩
  exact (List.sorted_insertionSort r l).insertionSort_eq

/-- On pairwise-distinct keys, sorting with the flipped comparator is
exactly the reverse of sorting with the original one. -/
theorem insertionSort_key_reverse {α K : Type} [LinearOrder K] (key : α → K)
    (r r' : α → α → Prop) [DecidableRel r] [DecidableRel r']
    (hr : ∀ a b, r a b ↔ key a ≤ key b) (hr' : ∀ a b, r' a b ↔ key b ≤ key a)
    (l : List α) (hdist : l.Pairwise (fun a b => key a ≠ key b)) :
    List.insertionSort r' l = (List.insertionSort r l).reverse := by
  haveI : IsTotal α r := ⟨fun a b => by rw [hr, hr]; exact le_total _ _⟩
  haveI : IsTrans α r := ⟨fun a b c h1 h2 => by
    rw [hr] at h1 h2 ⊢
    exact le_trans h1 h2⟩
  haveI : IsTotal α r' := ⟨fun a b => by rw [hr', hr']; exact le_total _ _⟩
  haveI : IsTrans α r' := ⟨fun a b c h1 h2 => by
    rw [hr'] at h1 h2 ⊢
    exact le_trans h2 h1⟩
  haveI : IsAntisymm α (fun a b : α => key b < key a) :=
    ⟨fun a b h1 h2 => absurd h2 (lt_asymm h1)⟩
  have hsym : ∀ {x y : α}, key x ≠ key y → key y ≠ key x := fun h he => h he.symm
  apply List.eq_of_perm_of_sorted (r := fun a b : α => key b < key a)
  · exact ((List.perm_insertionSort r' l).trans
      (List.perm_insertionSort r l).symm).trans (List.reverse_perm _).symm
  · have hs' : List.Pairwise r' (List.insertionSort r' l) := List.sorted_insertionSort r' l
    have hd' : List.Pairwise (fun a b => key a ≠ key b) (List.insertionSort r' l) :=
      ((List.perm_insertionSort r' l).pairwise_iff hsym).mpr hdist
    exact (hs'.and hd').imp (fun h => by
      rw [hr'] at h
      exact lt_of_le_of_ne h.1 (fun he => h.2 he.symm))
  · rw [List.Sorted, List.pairwise_reverse]
    have hs : List.Pairwise r (List.insertionSort r l) := List.sorted_insertionSort r l
    have hd : List.Pairwise (fun a b => key a ≠ key b) (List.insertionSort r l) :=
      ((List.perm_insertionSort r l).pairwise_iff hsym).mpr hdist
    exact (hs.and hd).imp (fun h => by
      rw [hr] at h
      exact lt_of_le_of_ne h.1 h.2)

/-- The stability/idempotence/reversal package for any comparator of
the source's shape over an ordered key. -/
theorem sortCmp_spec {K : Type} [LinearOrder K] (key : FileEntry → K) (o : SortOrder)
    (cmp cmpT tcmp : FileEntry → FileEntry → Int)
    (hcmp : ∀ a b, cmp a b = jsCmpVal o (key a) (key b))
    (hcmpT : ∀ a b, cmpT a b = jsCmpVal (toggleOrder o) (key a) (key b))
    (htcmp : ∀ a b, tcmp a b = jsTreeCmpVal o (key a) (key b))
    (l : List FileEntry) :
    (∀ a, (List.insertionSort (fun x y => cmp x y ≤ 0) l).filter
        (fun b => decide (cmp a b = 0)) = l.filter (fun b => decide (cmp a b = 0))) ∧
    (List.insertionSort (fun x y => cmp x y ≤ 0)
        (List.insertionSort (fun x y => cmp x y ≤ 0) l) =
      List.insertionSort (fun x y => cmp x y ≤ 0) l) ∧
    (l.Pairwise (fun a b => cmp a b ≠ 0) →
      List.insertionSort (fun x y => cmpT x y ≤ 0) l =
        (List.insertionSort (fun x y => cmp x y ≤ 0) l).reverse) ∧
    (∀ a b, cmp a b ≠ 0 → tcmp a b = cmp a b) := by
  have hzero : ∀ a b, cmp a b = 0 ↔ key a = key b := fun a b => by
    rw [hcmp]
    exact jsCmpVal_eq_zero o _ _
  have htree : ∀ a b, cmp a b ≠ 0 → tcmp a b = cmp a b := fun a b h => by
    rw [htcmp, hcmp]
    exact jsTreeCmpVal_eq_of_ne o (key a) (key b) (fun he => h ((hzero a b).mpr he))
  cases o with
  | asc =>
    have hr : ∀ a b : FileEntry, cmp a b ≤ 0 ↔ key a ≤ key b := fun a b => by
      rw [hcmp]
      exact jsCmpVal_asc_le _ _
    have hrT : ∀ a b : FileEntry, cmpT a b ≤ 0 ↔ key b ≤ key a := fun a b => by
      rw [hcmpT]
      exact jsCmpVal_desc_le _ _
    refine ⟨?_, insertionSort_key_idem key _ hr l, ?_, htree⟩
    · intro a
      have hfun : (fun b => decide (cmp a b = 0)) = (fun b => decide (key b = key a)) := by
        funext b
        apply decide_eq_decide.mpr
        rw [hzero]
        exact eq_comm
      rw [hfun]
      exact insertionSort_filter_key key _ hr (key a) l
    · intro hdist
      exact insertionSort_key_reverse key _ _ hr hrT l
        (hdist.imp (fun h he => h ((hzero _ _).mpr he)))
  | desc =>
    have hr : ∀ a b : FileEntry, cmp a b ≤ 0 ↔
        OrderDual.toDual (key a) ≤ OrderDual.toDual (key b) := fun a b => by
      rw [hcmp]
      exact (jsCmpVal_desc_le _ _).trans (OrderDual.toDual_le_toDual).symm
    have hrT : ∀ a b : FileEntry, cmpT a b ≤ 0 ↔
        OrderDual.toDual (key b) ≤ OrderDual.toDual (key a) := fun a b => by
      rw [hcmpT]
      exact (jsCmpVal_asc_le _ _).trans (OrderDual.toDual_le_toDual).symm
    refine ⟨?_, insertionSort_key_idem (fun f => OrderDual.toDual (key f)) _ hr l, ?_, htree⟩
    · intro a
      have hfun : (fun b => decide (cmp a b = 0)) =
          (fun b => decide (OrderDual.toDual (key b) = OrderDual.toDual (key a))) := by
        funext b
        apply decide_eq_decide.mpr
        rw [hzero]
        exact eq_comm.trans (OrderDual.toDual_inj).symm
      rw [hfun]
      exact insertionSort_filter_key (fun f => OrderDual.toDual (key f)) _ hr
        (OrderDual.toDual (key a)) l
    · intro hdist
      exact insertionSort_key_reverse (fun f => OrderDual.toDual (key f)) _ _ hr hrT l
        (hdist.imp (fun h he => h ((hzero _ _).mpr (OrderDual.toDual_inj.mp he))))

/-- C6 (counterexample): the tree flattener does NOT use the same
comparator as the flat list — on a tie the flat comparator returns `0`
(stable sort keeps input order) while the tree comparator returns `1`,
so the two comparators differ as functions. -/
theorem c6_tree_comparator_counterexample :
    cmpEntry SortKey.size SortOrder.asc JsMap.empty JsMap.empty
        ⟨"a", "a.wav", some 5, none, some 1⟩ ⟨"b", "b.wav", some 5, none, some 2⟩ = 0 ∧
      treeCmpEntry SortKey.size SortOrder.asc JsMap.empty JsMap.empty
        ⟨"a", "a.wav", some 5, none, some 1⟩ ⟨"b", "b.wav", some 5, none, some 2⟩ = 1 ∧
      ¬((0 : Int) = 1) := by
  refine ⟨?_, ?_, by decide⟩ <;> with_unfolding_all decide

/-- C6 (amended): the flat-list sort is stable (entries with equal
comparator keys keep their input order, stated via filters), sorting
twice with the same key and order yields an identical sequence, and
toggling asc/desc exactly reverses the output for inputs with pairwise
distinct keys; the tree flattener's comparator agrees with the flat one
off ties, but on ties it returns `±1` instead of `0`, so it is not the
same comparator. -/
theorem c6_sort_stability (k : SortKey) (o : SortOrder) (durations ratings : JsMap)
    (l : List FileEntry) :
    (∀ a, (sortedFiles k o durations ratings l).filter
        (fun b => decide (cmpEntry k o durations ratings a b = 0)) =
      l.filter (fun b => decide (cmpEntry k o durations ratings a b = 0))) ∧
    (sortedFiles k o durations ratings (sortedFiles k o durations ratings l) =
      sortedFiles k o durations ratings l) ∧
    (l.Pairwise (fun a b => cmpEntry k o durations ratings a b ≠ 0) →
      sortedFiles k (toggleOrder o) durations ratings l =
        (sortedFiles k o durations ratings l).reverse) ∧
    (∀ a b, cmpEntry k o durations ratings a b ≠ 0 →
      treeCmpEntry k o durations ratings a b = cmpEntry k o durations ratings a b) := by
  cases k with
  | name =>
    exact sortCmp_spec nameSortVal o _ _ _ (fun a b => rfl) (fun a b => rfl)
      (fun a b => rfl) l
  | type =>
    exact sortCmp_spec typeSortVal o _ _ _ (fun a b => rfl) (fun a b => rfl)
      (fun a b => rfl) l
  | size =>
    exact sortCmp_spec (numSortVal SortKey.size durations ratings) o _ _ _
      (fun a b => rfl) (fun a b => rfl) (fun a b => rfl) l
  | date =>
    exact sortCmp_spec (numSortVal SortKey.date durations ratings) o _ _ _
      (fun a b => rfl) (fun a b => rfl) (fun a b => rfl) l
  | duration =>
    exact sortCmp_spec (numSortVal SortKey.duration durations ratings) o _ _ _
      (fun a b => rfl) (fun a b => rfl) (fun a b => rfl) l
  | rating =>
    exact sortCmp_spec (numSortVal SortKey.rating durations ratings) o _ _ _
      (fun a b => rfl) (fun a b => rfl) (fun a b => rfl) l

/-- C6 witness: a concrete 3-entry list with pairwise distinct sizes —
toggling the order reverses the sorted sequence. -/
theorem c6_sort_stability_witness :
    ([(⟨"a", "a.wav", some 1, none, some 1⟩ : FileEntry),
        ⟨"b", "b.wav", some 3, none, some 1⟩,
        ⟨"c", "c.wav", some 2, none, some 1⟩].Pairwise
      (fun a b => cmpEntry SortKey.size SortOrder.asc JsMap.empty JsMap.empty a b ≠ 0)) ∧
      sortedFiles SortKey.size (toggleOrder SortOrder.asc) JsMap.empty JsMap.empty
          [⟨"a", "a.wav", some 1, none, some 1⟩,
           ⟨"b", "b.wav", some 3, none, some 1⟩,
           ⟨"c", "c.wav", some 2, none, some 1⟩] =
        (sortedFiles SortKey.size SortOrder.asc JsMap.empty JsMap.empty
          [⟨"a", "a.wav", some 1, none, some 1⟩,
           ⟨"b", "b.wav", some 3, none, some 1⟩,
           ⟨"c", "c.wav", some 2, none, some 1⟩]).reverse :=
  ⟨by with_unfolding_all decide,
   (c6_sort_stability SortKey.size SortOrder.asc JsMap.empty JsMap.empty
      [⟨"a", "a.wav", some 1, none, some 1⟩,
       ⟨"b", "b.wav", some 3, none, some 1⟩,
       ⟨"c", "c.wav", some 2, none, some 1⟩]).2.2.1
    (by with_unfolding_all decide)⟩
